import Mathlib

/-!
Verification development for the minorminer heuristic embedding engine.

This file contains a shallow embedding of:
* `include/fastrng.hpp` — the seeded 64-bit xorshift-class PRNG;
* the pairing-queue header (`pairing_queue` and `pairing_queue_fast_reset`):
  the node arena is modelled by a value function `Nat → Int` indexed by the
  dense key (the node's arena index, which is also its address order), and the
  `desc`/`next`/`prev` pointer structure of the live heap is modelled by a
  rose tree of keys (`desc` = head of the child list, `next` = the sibling
  chain, `prev` is derived back-pointer data used only by `remove`);
  a node whose `prev` points to itself (out of the heap) is a node whose key
  does not occur in the tree;
* the Python surface of `minorminer.pyx`: the unknown-parameter check, the
  label dictionaries, the `suspend_chains` pin construction and the
  post-processing that builds the returned mapping, and the embedding quality
  key (`count_overlaps` / `histogram_key` / `quality_key`).
-/

namespace MMV

/-! ### fastrng (include/fastrng.hpp) -/

/-- 2^64, the modulus of the `uint64_t` arithmetic in `fastrng`. -/
def U64 : Nat := 18446744073709551616

/-- The 128-bit generator state: two 64-bit words `S0`, `S1`. -/
structure FastRng where
  S0 : Nat
  S1 : Nat
deriving DecidableEq, Repr

/-- `splitmix64`: the argument is passed by reference and advanced; the
returned pair is (generated word, advanced argument). -/
def splitmix64 (x : Nat) : Nat × Nat :=
  let x1 := (x + 11400714819323198485) % U64
  let z := x1
  let z := ((z ^^^ (z >>> 30)) * 13787848793156543929) % U64
  let z := ((z ^^^ (z >>> 27)) * 10723151780598845931) % U64
  (z ^^^ (z >>> 31), x1)

/-- `fastrng::operator()`: advances the state and returns the output word. -/
def fastrngNext (g : FastRng) : FastRng × Nat :=
  let x := g.S0
  let y := g.S1
  let x := (x ^^^ ((x <<< 23) % U64))
  let s1 := x ^^^ y ^^^ (x >>> 17) ^^^ (y >>> 26)
  (⟨y, s1⟩, (s1 + y) % U64)

/-- The state transition performed by one iteration of the loop body of
`fastrng::discard` (same statements as `operator()` with the return dropped). -/
def fastrngStep (g : FastRng) : FastRng :=
  let x := g.S0
  let y := g.S1
  let x := (x ^^^ ((x <<< 23) % U64))
  let s1 := x ^^^ y ^^^ (x >>> 17) ^^^ (y >>> 26)
  ⟨y, s1⟩

/-- `fastrng::discard(n)`: run the loop body `n` times. -/
def fastrngDiscard : Nat → FastRng → FastRng
  | 0, g => g
  | n + 1, g => fastrngDiscard n (fastrngStep g)

/-- `fastrng::seed(uint64_t)`: `S0` and `S1` are two successive `splitmix64`
draws from the seed, then the first 1024 outputs are discarded. -/
def fastrngSeed64 (x : Nat) : FastRng :=
  let p0 := splitmix64 x
  let p1 := splitmix64 p0.2
  fastrngDiscard 1024 ⟨p0.1, p1.1⟩

/-- The list of the first `n` outputs produced by repeated `operator()` calls. -/
def fastrngStream : Nat → FastRng → List Nat
  | 0, _ => []
  | n + 1, g =>
    let r := fastrngNext g
    r.2 :: fastrngStream n r.1

/-! ### The pairing queue (pairing_queue.hpp)

Priorities `P` are modelled as `Int`; `numeric_limits<P>::max()` (the macro
`max_P`, used by `reset` and by `pairing_queue_fast_reset::get_value`) is the
largest representable priority.  We instantiate it as the 64-bit signed
maximum.

The heap model in this section identifies `n->prev == n` with "out of the
heap".  That identification is exact for every node except the first node
inserted into an *empty* queue, whose `prev` stays itself (the `merge_roots`
early-out); the claims proved over this section depend only on per-operation
value and flag observables, which that corner does not affect.  The
corner-tracking model further below follows the pointer shapes exactly. -/

/-- `numeric_limits<P>::max()` for the priority type. -/
def maxP : Int := 9223372036854775807

/-- The heap structure reachable from a node: `node k cs` is the arena node
with index `k`, whose `desc` pointer heads the child list `cs` (the list is
the `next`-sibling chain).  A key absent from the root tree is a node that is
out of the heap (its `prev` points to itself, `desc` and `next` are null). -/
inductive KTree : Type where
  | node (key : Nat) (kids : List KTree)

/-- The arena index of a node, which is also its address order (the arena is
contiguous, so `&nodes[a] < &nodes[b]` iff `a < b`). -/
def KTree.key : KTree → Nat
  | .node k _ => k

/-- `plain_node::operator<` / `time_node::operator<` on arena indices:
`(val < b.val) || (val == b.val && this < &b)`. -/
def nlt (vals : Nat → Int) (a b : Nat) : Prop :=
  vals a < vals b ∨ (vals a = vals b ∧ a < b)

instance (vals : Nat → Int) (a b : Nat) : Decidable (nlt vals a b) := by
  unfold nlt; exact inferInstance

/-- `merge_roots_unchecked(a, b)` (callers guarantee `*a < *b`): `b` becomes
the first child of `a` (`b->next = a->desc; a->desc = b`). -/
def mergeRootsC : KTree → KTree → KTree
  | .node k cs, b => .node k (b :: cs)

/-- `merge_roots_unsafe(a, b)`: compare the two roots with `operator<` and
attach the loser under the winner. -/
def mergeRootsU (vals : Nat → Int) (a b : KTree) : KTree :=
  if nlt vals a.key b.key then mergeRootsC a b else mergeRootsC b a

/-- `merge_roots(a, b)`: `b` may be null. -/
def mergeRoots (vals : Nat → Int) (a : KTree) (b : Option KTree) : KTree :=
  match b with
  | none => a
  | some b => mergeRootsU vals a b

/-- The first pass of `merge_pairs`: walk the sibling chain and merge
consecutive pairs, keeping a trailing odd element as is. -/
def pairPass (vals : Nat → Int) : List KTree → List KTree
  | [] => []
  | [a] => [a]
  | a :: b :: rest => mergeRootsU vals a b :: pairPass vals rest

/-- `merge_pairs(a)`: the first pass links the merged pairs in reverse order
through `prev`, and the second loop folds them back front to front; this is a
left fold of `merge_roots_unsafe` over the reversed pair list. -/
def mergePairs (vals : Nat → Int) (cs : List KTree) : Option KTree :=
  match (pairPass vals cs).reverse with
  | [] => none
  | a :: rs => some (rs.foldl (mergeRootsU vals) a)

mutual

/-- The arena indices occurring in a heap tree (root first). -/
def keysT : KTree → List Nat
  | .node k cs => k :: keysF cs

/-- The arena indices occurring in a sibling chain. -/
def keysF : List KTree → List Nat
  | [] => []
  | c :: cs => keysT c ++ keysF cs

end

/-- Whether key `k` is linked into the heap reachable from `root` (in the
code: `prev != self`, exact except for the fresh sole root of the
corner-tracking section below). -/
def inTreeB (k : Nat) (root : Option KTree) : Bool :=
  match root with
  | none => false
  | some t => (keysT t).contains k

/-- The keys linked into an optional heap. -/
def rootKeys (root : Option KTree) : List Nat :=
  match root with
  | none => []
  | some t => keysT t

mutual

/-- `remove(n)` for the node with index `k` strictly inside the tree:
unlink the subtree rooted at `k` (the node keeps its `desc` list), returning
(detached subtree, remaining tree).  `none` when `k` is not inside. -/
def removeK (k : Nat) : KTree → Option (KTree × KTree)
  | .node j cs =>
    match removeKL k cs with
    | some (sub, cs2) => some (sub, .node j cs2)
    | none => none

/-- `remove` search along a sibling chain. -/
def removeKL (k : Nat) : List KTree → Option (KTree × List KTree)
  | [] => none
  | c :: cs =>
    if c.key = k then some (c, cs)
    else
      match removeK k c with
      | some (sub, c2) => some (sub, c2 :: cs)
      | none =>
        match removeKL k cs with
        | some (sub, cs2) => some (sub, c :: cs2)
        | none => none

end

/-- `decrease(n)` after `n->val` has already been lowered (the new `vals` is
passed in): if `n` is the root (`prev` null) do nothing; otherwise `remove(n)`
(a no-op when `n` is out of the heap, unlinking from itself) and merge `n`
back with the root. -/
def decCore (vals : Nat → Int) (root : Option KTree) (k : Nat) : KTree :=
  match root with
  | none => KTree.node k []
  | some t =>
    if t.key = k then t
    else
      match removeK k t with
      | some (sub, rem) => mergeRootsU vals sub rem
      | none => mergeRootsU vals (KTree.node k []) t

/-- `pairing_queue<P>`: the fixed arena of `nv` nodes with their `val`
fields, plus the heap structure hanging from `root`. -/
structure PQ where
  nv : Nat
  vals : Nat → Int
  root : Option KTree

/-- The `pairing_queue(n)` constructor: `vector<N> nodes(n)` value-initializes
every `val` to zero and `root` to null. -/
def mkP (n : Nat) : PQ := ⟨n, fun _ => 0, none⟩

/-- `reset()` = `reset_fill(max_P)`: null root, every value set to `max_P`,
every node unlinked. -/
def resetP (q : PQ) : PQ := ⟨q.nv, fun _ => maxP, none⟩

/-- Core of `set_value(n, v)` on the value array and root (shared between
`pairing_queue` and the live-node path of `pairing_queue_fast_reset`):
* if `n->prev == n` (out of the heap): store `v` and merge `n` with the root;
* else if `v < n->val`: store and `decrease(n)`;
* else if `n->val < v`: store, `remove(n)`, merge `n` back with the root —
  when `n` is the root its `prev` is null and `remove` dereferences it (UB),
  modelled as `none`;
* else: no change.
Returns `none` exactly when the code crashes. -/
def svCore (vals : Nat → Int) (root : Option KTree) (k : Nat) (v : Int) :
    Option ((Nat → Int) × Option KTree) :=
  if inTreeB k root then
    if v < vals k then
      let vals2 := Function.update vals k v
      some (vals2, some (decCore vals2 root k))
    else if vals k < v then
      let vals2 := Function.update vals k v
      match root with
      | none => none
      | some t =>
        if t.key = k then none
        else
          match removeK k t with
          | some (sub, rem) => some (vals2, some (mergeRootsU vals2 sub rem))
          | none => none
    else
      some (vals, root)
  else
    let vals2 := Function.update vals k v
    some (vals2, some (mergeRoots vals2 (KTree.node k []) root))

/-- Core of `check_decrease_value(n, v)`: if `v < n->val` store `v`,
`decrease(n)` and return true, otherwise return false with nothing changed. -/
def cdCore (vals : Nat → Int) (root : Option KTree) (k : Nat) (v : Int) :
    Bool × (Nat → Int) × Option KTree :=
  if v < vals k then
    let vals2 := Function.update vals k v
    (true, vals2, some (decCore vals2 root k))
  else
    (false, vals, root)

/-- `pairing_queue::set_value(k, v)` with the `checkbound` assertion:
out-of-range keys are undefined behaviour (`none`). -/
def setV (q : PQ) (k : Nat) (v : Int) : Option PQ :=
  if k < q.nv then
    (svCore q.vals q.root k v).map (fun r => { q with vals := r.1, root := r.2 })
  else none

/-- `pairing_queue::check_decrease_value(k, v)`. -/
def checkDec (q : PQ) (k : Nat) (v : Int) : Option (Bool × PQ) :=
  if k < q.nv then
    let r := cdCore q.vals q.root k v
    some (r.1, { q with vals := r.2.1, root := r.2.2 })
  else none

/-- `pairing_queue::delete_min()`: false on an empty queue, otherwise unlink
the root (its `val` is untouched) and `merge_pairs` its child list. -/
def deleteMin (q : PQ) : Bool × PQ :=
  match q.root with
  | none => (false, q)
  | some (.node _ cs) => (true, { q with root := mergePairs q.vals cs })

/-- `pairing_queue::pop_min(key, value)`: on an empty queue return false with
the output arguments unwritten (`none`); otherwise report `min_key`/`min_value`
and `delete_min`. -/
def popMinQ (q : PQ) : Option (Nat × Int) × PQ :=
  match q.root with
  | none => (none, q)
  | some t => (some (t.key, q.vals t.key), (deleteMin q).2)

/-- `pairing_queue::min_value()` (asserts non-empty; null deref on empty). -/
def minValueQ (q : PQ) : Option Int := q.root.map (fun t => q.vals t.key)

/-- `pairing_queue::min_key()`. -/
def minKeyQ (q : PQ) : Option Nat := q.root.map (fun t => t.key)

/-- `pairing_queue::empty()`. -/
def emptyQ (q : PQ) : Bool := q.root.isNone

/-- The live (key, value) entries of the queue, root first. -/
def entries (q : PQ) : List (Nat × Int) :=
  match q.root with
  | none => []
  | some t => (keysT t).map (fun k => (k, q.vals k))

/-- Repeated `pop_min` with fuel; stops at the first failed pop. -/
def popSeq : Nat → PQ → List (Nat × Int)
  | 0, _ => []
  | fuel + 1, q =>
    match popMinQ q with
    | (none, _) => []
    | (some kv, q2) => kv :: popSeq fuel q2

/-- Strict lexicographic order on (key, value) entries, by value first and by
arena index (node address) on ties — the order of `operator<`. -/
def pairLt (a b : Nat × Int) : Prop :=
  a.2 < b.2 ∨ (a.2 = b.2 ∧ a.1 < b.1)

instance (a b : Nat × Int) : Decidable (pairLt a b) := by
  unfold pairLt; exact inferInstance

/-! ### pairing_queue_fast_reset -/

/-- `pairing_queue_fast_reset<P>`: the arena additionally stores each node's
generation stamp `time`; a node is live iff its stamp equals `now`. -/
structure FPQ where
  nv : Nat
  vals : Nat → Int
  times : Nat → Nat
  now : Nat
  root : Option KTree

/-- The constructor: value-initialized arena (`val = 0`, `time = 0`) and
`now = 0`. -/
def mkF (n : Nat) : FPQ := ⟨n, fun _ => 0, fun _ => 0, 0, none⟩

/-- `pairing_queue_fast_reset::reset()`: null the root and bump `now`;
only when the old `now` was zero are all stamps written (to zero). -/
def resetF (f : FPQ) : FPQ :=
  { f with root := none,
           times := if f.now = 0 then (fun _ => 0) else f.times,
           now := f.now + 1 }

/-- `pairing_queue_fast_reset::get_value(k)`: the stored value when the node
is live, `max_P` otherwise. -/
def getValF (f : FPQ) (k : Nat) : Int :=
  if f.times k = f.now then f.vals k else maxP

/-- `pairing_queue_fast_reset::set_value(k, v)`: a live node follows the base
class; a stale node is first re-initialized by `current(n)` (clearing its
links, so it is a fresh out-of-heap leaf), then `set_value` takes the
`prev == self` branch: store `v` and merge with the root. -/
def setVF (f : FPQ) (k : Nat) (v : Int) : Option FPQ :=
  if k < f.nv then
    if f.times k = f.now then
      (svCore f.vals f.root k v).map (fun r => { f with vals := r.1, root := r.2 })
    else
      let vals2 := Function.update f.vals k v
      some { f with vals := vals2,
                    times := Function.update f.times k f.now,
                    root := some (mergeRoots vals2 (KTree.node k []) f.root) }
  else none

/-- `pairing_queue_fast_reset::check_decrease_value(k, v)`: a live node
follows the base class; a stale node is re-initialized and unconditionally
inserted with value `v`, returning true. -/
def checkDecF (f : FPQ) (k : Nat) (v : Int) : Option (Bool × FPQ) :=
  if k < f.nv then
    if f.times k = f.now then
      let r := cdCore f.vals f.root k v
      some (r.1, { f with vals := r.2.1, root := r.2.2 })
    else
      let vals2 := Function.update f.vals k v
      some (true, { f with vals := vals2,
                           times := Function.update f.times k f.now,
                           root := some (mergeRoots vals2 (KTree.node k []) f.root) })
  else none

/-- Inherited `delete_min` (note: it calls the base-class node reset, which
does not touch the stamp, so a popped node stays live with its old value). -/
def deleteMinF (f : FPQ) : Bool × FPQ :=
  match f.root with
  | none => (false, f)
  | some (.node _ cs) => (true, { f with root := mergePairs f.vals cs })

/-- Inherited `pop_min`. -/
def popMinF (f : FPQ) : Option (Nat × Int) × FPQ :=
  match f.root with
  | none => (none, f)
  | some t => (some (t.key, f.vals t.key), (deleteMinF f).2)

/-- Inherited `min_value`. -/
def minValueF (f : FPQ) : Option Int := f.root.map (fun t => f.vals t.key)

/-- Inherited `min_key`. -/
def minKeyF (f : FPQ) : Option Nat := f.root.map (fun t => t.key)

/-- Inherited `empty`. -/
def emptyF (f : FPQ) : Bool := f.root.isNone

/-! ### Observable operations and runs, for comparing the two queue variants -/

/-- One queue operation from the public interface. -/
inductive QInstr : Type where
  | setVal (k : Nat) (v : Int)
  | chkDec (k : Nat) (v : Int)
  | popMn
  | delMn
  | minVl
  | minKy
  | isEmp
deriving DecidableEq, Repr

/-- An observable result of one queue operation. -/
inductive QOut : Type where
  | unitR
  | flag (b : Bool)
  | popped (r : Option (Nat × Int))
  | minv (r : Int)
  | mink (r : Nat)
deriving DecidableEq, Repr

/-- Step the plain `pairing_queue`; `none` models a crash (failed bound
assertion, null dereference in `min_value`/`min_key` on an empty queue, or
the `remove`-on-root dereference in `set_value`). -/
def stepP (i : QInstr) (q : PQ) : Option (QOut × PQ) :=
  match i with
  | .setVal k v => (setV q k v).map (fun q2 => (QOut.unitR, q2))
  | .chkDec k v => (checkDec q k v).map (fun r => (QOut.flag r.1, r.2))
  | .popMn => let r := popMinQ q; some (QOut.popped r.1, r.2)
  | .delMn => let r := deleteMin q; some (QOut.flag r.1, r.2)
  | .minVl => (minValueQ q).map (fun v => (QOut.minv v, q))
  | .minKy => (minKeyQ q).map (fun k => (QOut.mink k, q))
  | .isEmp => some (QOut.flag (emptyQ q), q)

/-- Step the `pairing_queue_fast_reset`. -/
def stepF (i : QInstr) (f : FPQ) : Option (QOut × FPQ) :=
  match i with
  | .setVal k v => (setVF f k v).map (fun f2 => (QOut.unitR, f2))
  | .chkDec k v => (checkDecF f k v).map (fun r => (QOut.flag r.1, r.2))
  | .popMn => let r := popMinF f; some (QOut.popped r.1, r.2)
  | .delMn => let r := deleteMinF f; some (QOut.flag r.1, r.2)
  | .minVl => (minValueF f).map (fun v => (QOut.minv v, f))
  | .minKy => (minKeyF f).map (fun k => (QOut.mink k, f))
  | .isEmp => some (QOut.flag (emptyF f), f)

/-- Run a list of operations on the plain queue, collecting the observable
results; a crash aborts the run. -/
def runP : List QInstr → PQ → Option (List QOut)
  | [], _ => some []
  | i :: is, q =>
    match stepP i q with
    | none => none
    | some (o, q2) => (runP is q2).map (fun os => o :: os)

/-- Run a list of operations on the fast-reset queue. -/
def runF : List QInstr → FPQ → Option (List QOut)
  | [], _ => some []
  | i :: is, f =>
    match stepF i f with
    | none => none
    | some (o, f2) => (runF is f2).map (fun os => o :: os)

/-- The restriction forced on the equivalence: `check_decrease_value` is
never offered the maximum representable priority (on a stale node the fast
queue accepts it while the plain queue refuses). -/
def okIns : QInstr → Prop
  | .chkDec _ v => v < maxP
  | _ => True

instance (i : QInstr) : Decidable (okIns i) := by
  cases i <;> (unfold okIns; exact inferInstance)

/-! ### Reachability and invariants -/

mutual

/-- The pairing-heap order invariant: every node's `(val, index)` rank is
strictly below each of its children's (this is what every `merge_roots_unsafe`
establishes for the edge it creates). -/
def heapOk (vals : Nat → Int) : KTree → Bool
  | .node k cs => heapOkL vals k cs

/-- `heapOk` for a child list under parent index `k`. -/
def heapOkL (vals : Nat → Int) (k : Nat) : List KTree → Bool
  | [] => true
  | c :: cs => decide (nlt vals k c.key) && heapOk vals c && heapOkL vals k cs

end

/-- Well-formedness of a plain queue: the live tree has pairwise-distinct
keys and satisfies the heap order. -/
def WF (q : PQ) : Prop :=
  ∀ t, q.root = some t → (keysT t).Nodup ∧ heapOk q.vals t = true

/-- States of the fast-reset queue reachable from the constructor by its
public operations. -/
inductive FReach : FPQ → Prop where
  | init (n : Nat) : FReach (mkF n)
  | rst {f : FPQ} : FReach f → FReach (resetF f)
  | setv {f f2 : FPQ} {k : Nat} {v : Int} :
      FReach f → setVF f k v = some f2 → FReach f2
  | chk {f f2 : FPQ} {k : Nat} {v : Int} {b : Bool} :
      FReach f → checkDecF f k v = some (b, f2) → FReach f2
  | pop {f : FPQ} : FReach f → FReach (popMinF f).2
  | del {f : FPQ} : FReach f → FReach (deleteMinF f).2

/-! ### minorminer.pyx — embedding quality key

`emb.values()` is modelled as the list of chains in dict insertion order;
target labels are modelled as `Int`.  Python dicts are modelled as
association lists with insertion-ordered keys and in-place updates. -/

/-- `d.get(k, dflt)` for an `Int`-keyed dict. -/
def dGet (d : List (Int × Int)) (k : Int) (dflt : Int) : Int :=
  match d.find? (fun p => decide (p.1 = k)) with
  | some p => p.2
  | none => dflt

/-- `d[k] = v`: overwrite in place when the key is present (its position is
kept), append otherwise. -/
def dSet (d : List (Int × Int)) (k v : Int) : List (Int × Int) :=
  if d.any (fun p => decide (p.1 = k)) then
    d.map (fun p => if p.1 = k then (k, v) else p)
  else d ++ [(k, v)]

/-- `minorminer.count_overlaps(chains)`: `o[q] = 1 + o.get(q, -1)` for each
`q` in each chain, so `o[q]` ends as (occurrences of `q`) − 1. -/
def count_overlaps (chains : List (List Int)) : List (Int × Int) :=
  chains.foldl (fun o c => c.foldl (fun o q => dSet o q (1 + dGet o q (-1))) o) []

/-- Descending lexicographic order on `(value, count)` pairs: the comparison
performed by `sorted(h.items(), reverse=True)`. -/
def rPairDesc (a b : Int × Int) : Prop :=
  b.1 < a.1 ∨ (b.1 = a.1 ∧ b.2 ≤ a.2)

instance : DecidableRel rPairDesc := by
  intro a b; unfold rPairDesc; exact inferInstance

instance : IsTotal (Int × Int) rPairDesc := by
  constructor; intro a b; unfold rPairDesc; omega

instance : IsTrans (Int × Int) rPairDesc := by
  constructor; intro a b c; unfold rPairDesc; omega

instance : IsAntisymm (Int × Int) rPairDesc := by
  constructor
  intro a b h1 h2
  unfold rPairDesc at h1 h2
  have : a.1 = b.1 ∧ a.2 = b.2 := by omega
  exact Prod.ext this.1 this.2

/-- Flatten a pair list: `[t[i] for t in l for i in (0, 1)]`. -/
def joinPairs : List (Int × Int) → List Int
  | [] => []
  | p :: r => p.1 :: p.2 :: joinPairs r

/-- `minorminer.histogram_key(sizes)`: histogram of the nonzero entries
(`if s:` skips zeros), items sorted descending, flattened. -/
def histogram_key (sizes : List Int) : List Int :=
  let h := sizes.foldl (fun h s => if s = 0 then h else dSet h s (1 + dGet h s 0)) []
  joinPairs (h.insertionSort rPairDesc)

/-- `minorminer.quality_key(emb, embedded)`.  The Python result is the tuple
`(2,)` for an empty embedding — modelled as `(2, none)` — and otherwise
`(state, O, L)`, modelled as `(state, some (O, L))`. -/
def quality_key (emb : List (List Int)) (embedded : Bool) :
    Nat × Option (List Int × List Int) :=
  if emb = [] then (2, none)
  else
    let L := histogram_key (emb.map (fun c => (c.length : Int)))
    let O := if embedded then [] else histogram_key ((count_overlaps emb).map (fun p => p.2))
    let state := if O = [] then 0 else 1
    (state, some (O, L))

/-- Descending order on `Int` used by the specification-side histogram. -/
def rIntDesc (a b : Int) : Prop := b ≤ a

instance : DecidableRel rIntDesc := by
  intro a b; unfold rIntDesc; exact inferInstance

instance : IsTotal Int rIntDesc := by
  constructor; intro a b; unfold rIntDesc; omega

instance : IsTrans Int rIntDesc := by
  constructor; intro a b c; unfold rIntDesc; omega

instance : IsAntisymm Int rIntDesc := by
  constructor; intro a b h1 h2; unfold rIntDesc at h1 h2; omega

/-- Modelled from the spec: the histogram of a list of values as described by
the specification — "(value, count) pairs sorted by value descending,
flattened" — over the nonzero values (zero counts omitted). -/
def specHistogram (sizes : List Int) : List Int :=
  joinPairs ((((sizes.filter (fun s => decide (s ≠ 0))).dedup).insertionSort rIntDesc).map
    (fun v => (v, (sizes.count v : Int))))

/-- Modelled from the spec: the histogram of ALL values of a list (including
zeros), as the claim reads for the chain-length histogram `L`. -/
def specHistogramAll (sizes : List Int) : List Int :=
  joinPairs (((sizes.dedup).insertionSort rIntDesc).map
    (fun v => (v, (sizes.count v : Int))))

/-- The distinct elements of a list in first-occurrence order (the key order
of a Python dict filled by iteration). -/
def occOrder (l : List Int) : List Int :=
  l.foldl (fun acc q => if q ∈ acc then acc else acc ++ [q]) []

/-- Modelled from the spec: the list of overlap counts — for each distinct
target node of the embedding, its number of occurrences across chains minus
one — in first-occurrence order. -/
def specOverlapValues (emb : List (List Int)) : List Int :=
  (occOrder emb.flatten).map (fun q => ((emb.flatten.count q : Int) - 1))

/-- Python `<` on `Int` lists (lexicographic, a strict prefix is smaller). -/
def intListLtB : List Int → List Int → Bool
  | [], [] => false
  | [], _ :: _ => true
  | _ :: _, [] => false
  | a :: as, b :: bs => decide (a < b) || (decide (a = b) && intListLtB as bs)

/-- Python `<` on quality keys (tuple comparison; `(2,)` is a strict prefix
of any `(2, O, L)`). -/
def qkeyLtB (a b : Nat × Option (List Int × List Int)) : Bool :=
  decide (a.1 < b.1) ||
    (decide (a.1 = b.1) &&
      (match a.2, b.2 with
       | some p1, some p2 => intListLtB p1.1 p2.1 || (decide (p1.1 = p2.1) && intListLtB p1.2 p2.2)
       | some _, none => false
       | none, some _ => true
       | none, none => false))

/-! ### minorminer.pyx — input parsing, labels, and suspension pins -/

/-- Node labels: arbitrary user labels (`base`) and the tuples
`("__MINORMINER_INTERNAL_PIN_FOR_SUSPENSION", v, i)` (`pin v i`). -/
inductive Lab : Type where
  | base (n : Nat)
  | pin (v : Lab) (i : Nat)
deriving DecidableEq, Repr

/-- Errors raised by `_input_parser.__init__`. -/
inductive PErr : Type where
  | valueError
  | runtimeError
deriving DecidableEq, Repr

/-- `labeldict.__getitem__`: look a label up, appending it with the next
dense id when missing; returns the (possibly extended) table and the id. -/
def ldIdx (L : List Lab) (x : Lab) : List Lab × Nat :=
  match L.findIdx? (fun y => decide (y = x)) with
  | some i => (L, i)
  | none => (L ++ [x], L.length)

/-- `_read_graph`: build the label table and the dense edge list. -/
def readGraph (E : List (Lab × Lab)) : List Lab × List (Nat × Nat) :=
  E.foldl (fun acc e =>
    let r1 := ldIdx acc.1 e.1
    let r2 := ldIdx r1.1 e.2
    (r2.1, acc.2 ++ [(r1.2, r2.2)])) ([], [])

/-- Dict assignment `fixed_chains[pin] = [pin]`. -/
def dSetLab (d : List (Lab × List Lab)) (k : Lab) (v : List Lab) :
    List (Lab × List Lab) :=
  if d.any (fun p => decide (p.1 = k)) then
    d.map (fun p => if p.1 = k then (k, v) else p)
  else d ++ [(k, v)]

/-- The mutable state of `_input_parser.__init__` relevant to label and pin
bookkeeping. -/
structure PState where
  SL : List Lab
  TL : List Lab
  Sg : List (Nat × Nat)
  Tg : List (Nat × Nat)
  pincount : Nat
  fixedC : List (Lab × List Lab)
deriving Repr

/-- Process one suspension blob of variable `v` (blob index `i`): create the
pin label, raise if it collides with an existing source or target label, add
the target edges `(pin, q)`, and if the blob was nonempty count the pin, fix
`chain(pin) = [pin]` and add the source edge `(v, pin)`. -/
def procBlob (st : PState) (v : Lab) (i : Nat) (blob : List Lab) :
    Except PErr PState :=
  let pn := Lab.pin v i
  if pn ∈ st.SL then .error .valueError
  else if pn ∈ st.TL then .error .valueError
  else
    let st1 := blob.foldl (fun st q =>
      let r1 := ldIdx st.TL pn
      let r2 := ldIdx r1.1 q
      { st with TL := r2.1, Tg := st.Tg ++ [(r1.2, r2.2)] }) st
    if blob = [] then .ok st1
    else
      let st2 := { st1 with pincount := st1.pincount + 1,
                            fixedC := dSetLab st1.fixedC pn [pn] }
      let r1 := ldIdx st2.SL v
      let r2 := ldIdx r1.1 pn
      .ok { st2 with SL := r2.1, Sg := st2.Sg ++ [(r1.2, r2.2)] }

/-- `for i, blob in enumerate(blobs)` starting at blob index `i`. -/
def procBlobs (st : PState) (v : Lab) (i : Nat) :
    List (List Lab) → Except PErr PState
  | [] => .ok st
  | b :: bs =>
    match procBlob st v i b with
    | .error e => .error e
    | .ok st2 => procBlobs st2 v (i + 1) bs

/-- `for v, blobs in suspend_chains.items()`. -/
def procSuspend (st : PState) : List (Lab × List (List Lab)) → Except PErr PState
  | [] => .ok st
  | vb :: rest =>
    match procBlobs st vb.1 0 vb.2 with
    | .error e => .error e
    | .ok st2 => procSuspend st2 rest

/-- The pin labels materialized for the blobs of one variable (one per
nonempty blob), blob indices counted from `i`. -/
def materializedPinsB (v : Lab) (i : Nat) : List (List Lab) → List Lab
  | [] => []
  | b :: bs => (if b = [] then [] else [Lab.pin v i]) ++ materializedPinsB v (i + 1) bs

/-- All pin labels materialized for a `suspend_chains` option. -/
def materializedPins : List (Lab × List (List Lab)) → List Lab
  | [] => []
  | vb :: rest => materializedPinsB vb.1 0 vb.2 ++ materializedPins rest

/-- `_get_chainmap(C, CMap, SL, TL)`: translate each nonempty chain through
the label tables (extending them on unknown labels), producing the dense
chain map and the extended tables. -/
def getChainmap (C : List (Lab × List Lab)) (SL TL : List Lab) :
    List (Nat × List Nat) × List Lab × List Lab :=
  C.foldl (fun acc p =>
    if p.2 = [] then acc
    else
      let r := p.2.foldl (fun (r : List Lab × List Nat) x =>
        let q := ldIdx r.1 x
        (q.1, r.2 ++ [q.2])) (acc.2.2, [])
      let r2 := ldIdx acc.2.1 p.1
      (acc.1 ++ [(r2.2, r.2)], r2.1, r.1)) ([], SL, TL)

/-- The recognized option names of `find_embedding`. -/
def validNames : List String :=
  ["max_no_improvement", "random_seed", "timeout", "tries", "verbose",
   "fixed_chains", "initial_chains", "max_fill", "chainlength_patience",
   "return_overlap", "skip_initialization", "inner_rounds", "threads",
   "restrict_chains", "suspend_chains", "max_beta"]

/-- The parameters of `find_embedding` as far as this model needs them: the
set of keys present (in dict iteration order) and the payloads of the chain
options (meaningful only when the corresponding key is present). -/
structure MMParams where
  keys : List String
  suspend : List (Lab × List (List Lab))
  fixedChains : List (Lab × List Lab)
  initialChains : List (Lab × List Lab)
  restrictChains : List (Lab × List Lab)

/-- `_input_parser.__init__(S, T, params)`: reject unknown parameter names
first (before graphs are parsed), then read the two graphs, process the
suspension pins, and apply the three chain maps, checking after each stage
that no label outside the edge lists (plus the pins) was introduced. -/
def inputParserInit (p : MMParams) (S T : List (Lab × Lab)) :
    Except PErr PState :=
  match p.keys.find? (fun n => !(validNames.contains n)) with
  | some _ => .error .valueError
  | none =>
    let rS := readGraph S
    let rT := readGraph T
    let checkS := rS.1.length
    let checkT := rT.1.length
    let fixed0 := if p.keys.contains ("fixed_chains") then p.fixedChains else []
    let st0 : PState := ⟨rS.1, rT.1, rS.2, rT.2, 0, fixed0⟩
    match (if p.keys.contains ("suspend_chains") then procSuspend st0 p.suspend
           else .ok st0) with
    | .error e => .error e
    | .ok st1 =>
      if checkS + st1.pincount < st1.SL.length then .error .runtimeError
      else if checkT + st1.pincount < st1.TL.length then .error .runtimeError
      else
        let r1 := getChainmap st1.fixedC st1.SL st1.TL
        if checkS + st1.pincount < r1.2.1.length then .error .runtimeError
        else if checkT + st1.pincount < r1.2.2.length then .error .runtimeError
        else
          let r2 := getChainmap
            (if p.keys.contains ("initial_chains") then p.initialChains else [])
            r1.2.1 r1.2.2
          if checkS + st1.pincount < r2.2.1.length then .error .runtimeError
          else if checkT + st1.pincount < r2.2.2.length then .error .runtimeError
          else
            let r3 := getChainmap
              (if p.keys.contains ("restrict_chains") then p.restrictChains else [])
              r2.2.1 r2.2.2
            if checkS + st1.pincount < r3.2.1.length then .error .runtimeError
            else if checkT + st1.pincount < r3.2.2.length then .error .runtimeError
            else .ok { st1 with SL := r3.2.1, TL := r3.2.2 }

/-- The keys of the mapping built by `find_embedding` from the chain vector
returned by the C++ core: labels of the variables `0 .. nc - pincount - 1`
(nothing when the chain vector is empty). -/
def rchainKeys (st : PState) (nc : Nat) : List Lab :=
  if nc = 0 then []
  else (List.range (nc - st.pincount)).map (fun v => st.SL.getD v (Lab.base 0))

/-! ### The pairing queue with the `prev == self` corner tracked

The model above identifies `n->prev == n` with "not linked into the heap".
That is exact for every node except one: `merge_roots(a, b)` returns `a`
unchanged when `b` is null, so the first node inserted into an *empty* queue
becomes the root while keeping `prev == itself` (from `reset`).  A later
`set_value` on that key then re-runs the insert branch and
`merge_roots_unchecked(n, n)` sets `n->desc = n`; a value-decreasing
`check_decrease_value` reaches the same state through `decrease` (whose
CPPDEBUG assertion `a != root` fails there; the package is built without
CPPDEBUG).  The states below track this with a mode flag:

* `clean` — the root (if any) has null `prev`, every other in-heap node's
  `prev` is its parent or left sibling, out-of-heap nodes have `prev == self`;
* `fresh` — the root is a sole node with `prev == itself` (insert into empty);
* `cyc`   — the root is a sole node with `desc == itself` and null `prev`
  (the self-merge above); `delete_min` pops it and, resetting the same node,
  returns it to `fresh`, so the node is popped twice.

Every reachable corner state is a one-node heap; the only unmodeled
continuation is inserting a *further* key into a `cyc` heap, which corrupts
the pointer structure beyond any tree (modelled as `none`, and identical in
both queue variants, which run the same inherited code). -/

/-- The three pointer shapes a root can take (see the section comment). -/
inductive QMode : Type where
  | clean
  | fresh
  | cyc
deriving DecidableEq, Repr

/-- Whether `k` is the key of the root. -/
def rootIsB (k : Nat) (root : Option KTree) : Bool :=
  match root with
  | none => false
  | some t => t.key == k

/-- `root = merge_roots(n, root)` for a node `n` (key `k`) whose `prev` is
itself and whose `desc`/`next` are null (an out-of-heap leaf, or the fresh
sole root itself):
* null root: the early-out returns `n` without writing `prev` — `fresh`;
* the root is `n` itself (only possible in `fresh` mode):
  `merge_roots_unchecked(n, n)` sets `n->desc = n`, then `prev` is nulled —
  `cyc`;
* a `cyc` root: the self-loop survives inside the merged structure, corrupting
  it beyond a tree — unmodeled (`none`);
* otherwise a normal merge, which writes the `prev` of both roots — `clean`. -/
def insMerge (vals : Nat → Int) (root : Option KTree) (mode : QMode) (k : Nat) :
    Option (Option KTree × QMode) :=
  match root with
  | none => some (some (KTree.node k []), QMode.fresh)
  | some t =>
    if mode = QMode.cyc then none
    else if mode = QMode.fresh ∧ t.key = k then
      some (some (KTree.node k []), QMode.cyc)
    else some (some (mergeRootsU vals (KTree.node k []) t), QMode.clean)

/-- `decrease(n)` (the new `vals` already stores the lowered value): a no-op
when `a->prev` is null (the root of a `clean` or `cyc` heap); otherwise
`remove(a)` (a self-unlink no-op when `a` is out of the heap or the fresh
root) followed by `root = merge_roots(a, root)` — which self-merges the fresh
root (the failing-assertion path) and otherwise re-inserts `a`. -/
def dec2Core (vals : Nat → Int) (root : Option KTree) (mode : QMode) (k : Nat) :
    Option (Option KTree × QMode) :=
  if rootIsB k root && !(decide (mode = QMode.fresh)) then
    some (root, mode)
  else
    match root with
    | none => some (some (KTree.node k []), QMode.fresh)
    | some t =>
      if mode = QMode.cyc then none
      else if mode = QMode.fresh ∧ t.key = k then
        some (some (KTree.node k []), QMode.cyc)
      else
        match removeK k t with
        | some (sub, rem) => some (some (mergeRootsU vals sub rem), QMode.clean)
        | none => some (some (mergeRootsU vals (KTree.node k []) t), QMode.clean)

/-- `set_value(n, v)` with the mode tracked.  The dispatch `n->prev == n`
holds for keys outside the heap and for the fresh sole root; the increase
branch on a root with null `prev` (`clean` or `cyc` mode) dereferences null
in `remove` (a crash, `none`). -/
def sv2Core (vals : Nat → Int) (root : Option KTree) (mode : QMode) (k : Nat)
    (v : Int) : Option ((Nat → Int) × Option KTree × QMode) :=
  if !(inTreeB k root) || (decide (mode = QMode.fresh) && rootIsB k root) then
    let vals2 := Function.update vals k v
    (insMerge vals2 root mode k).map (fun r => (vals2, r))
  else if v < vals k then
    let vals2 := Function.update vals k v
    (dec2Core vals2 root mode k).map (fun r => (vals2, r))
  else if vals k < v then
    match root with
    | none => none
    | some t =>
      if t.key = k then none
      else
        let vals2 := Function.update vals k v
        match removeK k t with
        | some (sub, rem) =>
          some (vals2, some (mergeRootsU vals2 sub rem), QMode.clean)
        | none => none
  else some (vals, root, mode)

/-- `check_decrease_value(n, v)` with the mode tracked. -/
def cd2Core (vals : Nat → Int) (root : Option KTree) (mode : QMode) (k : Nat)
    (v : Int) : Option (Bool × (Nat → Int) × Option KTree × QMode) :=
  if v < vals k then
    let vals2 := Function.update vals k v
    (dec2Core vals2 root mode k).map (fun r => (true, vals2, r))
  else some (false, vals, root, mode)

/-- `pairing_queue<P>` with the root's pointer shape tracked. -/
structure PQ2 where
  nv : Nat
  vals : Nat → Int
  root : Option KTree
  mode : QMode

/-- The constructor (value-initialized arena, null root). -/
def mkP2 (n : Nat) : PQ2 := ⟨n, fun _ => 0, none, QMode.clean⟩

/-- `reset()`: null root, every value `max_P`, every node unlinked. -/
def resetP2 (q : PQ2) : PQ2 := ⟨q.nv, fun _ => maxP, none, QMode.clean⟩

/-- `pairing_queue::set_value(k, v)` (with `checkbound`). -/
def setV2 (q : PQ2) (k : Nat) (v : Int) : Option PQ2 :=
  if k < q.nv then
    (sv2Core q.vals q.root q.mode k v).map
      (fun r => { q with vals := r.1, root := r.2.1, mode := r.2.2 })
  else none

/-- `pairing_queue::check_decrease_value(k, v)`. -/
def checkDec2 (q : PQ2) (k : Nat) (v : Int) : Option (Bool × PQ2) :=
  if k < q.nv then
    (cd2Core q.vals q.root q.mode k v).map
      (fun r => (r.1, { q with vals := r.2.1, root := r.2.2.1, mode := r.2.2.2 }))
  else none

/-- `pairing_queue::delete_min()`.  On a `cyc` root `n`, `newroot = n->desc`
is `n` itself; `merge_pairs` returns it, and `reset(root)` then re-unlinks
the *same* node (`prev = itself` again), leaving it the `fresh` sole root
with its value intact — the double-pop state. -/
def deleteMin2 (q : PQ2) : Bool × PQ2 :=
  match q.root with
  | none => (false, q)
  | some (.node j cs) =>
    if q.mode = QMode.cyc then
      (true, { q with root := some (KTree.node j []), mode := QMode.fresh })
    else
      (true, { q with root := mergePairs q.vals cs, mode := QMode.clean })

/-- `pairing_queue::pop_min(key, value)`. -/
def popMin2 (q : PQ2) : Option (Nat × Int) × PQ2 :=
  match q.root with
  | none => (none, q)
  | some t => (some (t.key, q.vals t.key), (deleteMin2 q).2)

/-- `pairing_queue::min_value()`. -/
def minValue2 (q : PQ2) : Option Int := q.root.map (fun t => q.vals t.key)

/-- `pairing_queue::min_key()`. -/
def minKey2 (q : PQ2) : Option Nat := q.root.map (fun t => t.key)

/-- `pairing_queue::empty()`. -/
def empty2 (q : PQ2) : Bool := q.root.isNone

/-- The live (key, value) entries, root first. -/
def entries2 (q : PQ2) : List (Nat × Int) :=
  match q.root with
  | none => []
  | some t => (keysT t).map (fun k => (k, q.vals k))

/-- Repeated `pop_min` with fuel; stops at the first failed pop. -/
def popSeq2 : Nat → PQ2 → List (Nat × Int)
  | 0, _ => []
  | fuel + 1, q =>
    match popMin2 q with
    | (none, _) => []
    | (some kv, q2) => kv :: popSeq2 fuel q2

/-- `pairing_queue_fast_reset<P>` with the root's pointer shape tracked. -/
structure FPQ2 where
  nv : Nat
  vals : Nat → Int
  times : Nat → Nat
  now : Nat
  root : Option KTree
  mode : QMode

/-- The constructor (`val = 0`, `time = 0`, `now = 0`). -/
def mkF2 (n : Nat) : FPQ2 := ⟨n, fun _ => 0, fun _ => 0, 0, none, QMode.clean⟩

/-- `pairing_queue_fast_reset::reset()`. -/
def resetF2 (f : FPQ2) : FPQ2 :=
  { f with root := none, mode := QMode.clean,
           times := if f.now = 0 then (fun _ => 0) else f.times,
           now := f.now + 1 }

/-- `pairing_queue_fast_reset::get_value(k)`. -/
def getValF2 (f : FPQ2) (k : Nat) : Int :=
  if f.times k = f.now then f.vals k else maxP

/-- Fast `set_value(k, v)`: a live node runs the base-class code; a stale
node is re-initialized by `current(n)` (an out-of-heap leaf stamped `now`)
and then stored and merged with the root — including the same early-out that
makes it the `fresh` sole root of an empty queue. -/
def setVF2 (f : FPQ2) (k : Nat) (v : Int) : Option FPQ2 :=
  if k < f.nv then
    if f.times k = f.now then
      (sv2Core f.vals f.root f.mode k v).map
        (fun r => { f with vals := r.1, root := r.2.1, mode := r.2.2 })
    else
      let vals2 := Function.update f.vals k v
      (insMerge vals2 f.root f.mode k).map
        (fun r => { f with vals := vals2,
                           times := Function.update f.times k f.now,
                           root := r.1, mode := r.2 })
  else none

/-- Fast `check_decrease_value(k, v)`: a live node runs the base-class code;
a stale node is re-initialized and handed to `set_value` (whose
`prev == self` branch stores and merges it), returning true. -/
def checkDecF2 (f : FPQ2) (k : Nat) (v : Int) : Option (Bool × FPQ2) :=
  if k < f.nv then
    if f.times k = f.now then
      (cd2Core f.vals f.root f.mode k v).map
        (fun r => (r.1, { f with vals := r.2.1, root := r.2.2.1, mode := r.2.2.2 }))
    else
      let vals2 := Function.update f.vals k v
      (insMerge vals2 f.root f.mode k).map
        (fun r => (true, { f with vals := vals2,
                                  times := Function.update f.times k f.now,
                                  root := r.1, mode := r.2 }))
  else none

/-- Inherited `delete_min` (the base-class node reset does not touch the
stamp, so a popped node stays live with its old value). -/
def deleteMinF2 (f : FPQ2) : Bool × FPQ2 :=
  match f.root with
  | none => (false, f)
  | some (.node j cs) =>
    if f.mode = QMode.cyc then
      (true, { f with root := some (KTree.node j []), mode := QMode.fresh })
    else
      (true, { f with root := mergePairs f.vals cs, mode := QMode.clean })

/-- Inherited `pop_min`. -/
def popMinF2 (f : FPQ2) : Option (Nat × Int) × FPQ2 :=
  match f.root with
  | none => (none, f)
  | some t => (some (t.key, f.vals t.key), (deleteMinF2 f).2)

/-- Inherited `min_value`. -/
def minValueF2 (f : FPQ2) : Option Int := f.root.map (fun t => f.vals t.key)

/-- Inherited `min_key`. -/
def minKeyF2 (f : FPQ2) : Option Nat := f.root.map (fun t => t.key)

/-- Inherited `empty`. -/
def emptyF2 (f : FPQ2) : Bool := f.root.isNone

/-- Step the corner-tracking plain queue. -/
def stepP2 (i : QInstr) (q : PQ2) : Option (QOut × PQ2) :=
  match i with
  | .setVal k v => (setV2 q k v).map (fun q2 => (QOut.unitR, q2))
  | .chkDec k v => (checkDec2 q k v).map (fun r => (QOut.flag r.1, r.2))
  | .popMn => let r := popMin2 q; some (QOut.popped r.1, r.2)
  | .delMn => let r := deleteMin2 q; some (QOut.flag r.1, r.2)
  | .minVl => (minValue2 q).map (fun v => (QOut.minv v, q))
  | .minKy => (minKey2 q).map (fun k => (QOut.mink k, q))
  | .isEmp => some (QOut.flag (empty2 q), q)

/-- Step the corner-tracking fast-reset queue. -/
def stepF2 (i : QInstr) (f : FPQ2) : Option (QOut × FPQ2) :=
  match i with
  | .setVal k v => (setVF2 f k v).map (fun f2 => (QOut.unitR, f2))
  | .chkDec k v => (checkDecF2 f k v).map (fun r => (QOut.flag r.1, r.2))
  | .popMn => let r := popMinF2 f; some (QOut.popped r.1, r.2)
  | .delMn => let r := deleteMinF2 f; some (QOut.flag r.1, r.2)
  | .minVl => (minValueF2 f).map (fun v => (QOut.minv v, f))
  | .minKy => (minKeyF2 f).map (fun k => (QOut.mink k, f))
  | .isEmp => some (QOut.flag (emptyF2 f), f)

/-- Run a list of operations on the corner-tracking plain queue. -/
def runP2 : List QInstr → PQ2 → Option (List QOut)
  | [], _ => some []
  | i :: is, q =>
    match stepP2 i q with
    | none => none
    | some (o, q2) => (runP2 is q2).map (fun os => o :: os)

/-- Run a list of operations on the corner-tracking fast-reset queue. -/
def runF2 : List QInstr → FPQ2 → Option (List QOut)
  | [], _ => some []
  | i :: is, f =>
    match stepF2 i f with
    | none => none
    | some (o, f2) => (runF2 is f2).map (fun os => o :: os)

/-- The coupling between the corner-tracking queues: identical heap structure
and mode; live nodes agree on their stored values; stale nodes correspond to
plain nodes holding `max_P`; every key in the heap is a live, in-range node. -/
def Rrel2 (p : PQ2) (f : FPQ2) : Prop :=
  p.nv = f.nv ∧ p.root = f.root ∧ p.mode = f.mode ∧
  (∀ k, k < f.nv → f.times k = f.now → p.vals k = f.vals k) ∧
  (∀ k, k < f.nv → f.times k ≠ f.now → p.vals k = maxP) ∧
  (∀ t, f.root = some t → ∀ k, k ∈ keysT t → k < f.nv ∧ f.times k = f.now)

/-- Agreement of one plain step with one fast step on the corner-tracking
queues: both crash, or both return the same observable and related states. -/
def stepAgree2 : Option (QOut × PQ2) → Option (QOut × FPQ2) → Prop
  | none, none => True
  | some r1, some r2 => r1.1 = r2.1 ∧ Rrel2 r1.2 r2.2
  | _, _ => False

/-- The 1-node queue after `reset()`. -/
def qc0 : PQ2 := resetP2 (mkP2 1)

/-- After `set_value(0, 5)`: the fresh sole root (`prev == itself`). -/
def qc1 : PQ2 := (setV2 qc0 0 5).getD qc0

/-- After `set_value(0, 3)`: the self-merged root (`desc == itself`). -/
def qc2 : PQ2 := (setV2 qc1 0 3).getD qc1


/-- A concrete `find_embedding` call with one suspension blob: the params. -/
def pW : MMParams :=
  ⟨["suspend_chains"], [(Lab.base 0, [[Lab.base 10]])], [], [], []⟩

/-- Source edges of the concrete call. -/
def sW : List (Lab × Lab) := [(Lab.base 0, Lab.base 1)]

/-- Target edges of the concrete call. -/
def tW : List (Lab × Lab) := [(Lab.base 10, Lab.base 11)]

/-- The parser state produced by the concrete call. -/
def stW : PState :=
  ⟨[Lab.base 0, Lab.base 1, Lab.pin (Lab.base 0) 0],
   [Lab.base 10, Lab.base 11, Lab.pin (Lab.base 0) 0],
   [(0, 1), (0, 2)], [(0, 1), (2, 0)], 1,
   [(Lab.pin (Lab.base 0) 0, [Lab.pin (Lab.base 0) 0])]⟩

/-! ## Theorems -/

/-! ### fastrng -/

theorem fastrngStep_eq_next_fst (g : FastRng) : fastrngStep g = (fastrngNext g).1 := rfl

/-- C9: `discard(n)` runs exactly the state transition of `operator()`,
`n` times. -/
theorem claim_C9 (n : Nat) (g : FastRng) :
    fastrngDiscard n g = (fun h => (fastrngNext h).1)^[n] g := by
  induction n generalizing g with
  | zero => rfl
  | succ m ih =>
    rw [fastrngDiscard, Function.iterate_succ_apply, ih, fastrngStep_eq_next_fst]

/-- C8: the output stream of a `fastrng` is a function of the seed alone —
any two generators seeded with the same 64-bit seed produce identical
output sequences. -/
theorem claim_C8 (x : Nat) (k : Nat) (g1 g2 : FastRng)
    (h1 : g1 = fastrngSeed64 x) (h2 : g2 = fastrngSeed64 x) :
    fastrngStream k g1 = fastrngStream k g2 := by
  rw [h1, h2]

theorem claim_C8_witness :
    fastrngSeed64 7 = fastrngSeed64 7 ∧
      fastrngStream 3 (fastrngSeed64 7) = fastrngStream 3 (fastrngSeed64 7) :=
  ⟨rfl, claim_C8 7 3 (fastrngSeed64 7) (fastrngSeed64 7) rfl rfl⟩

/-! ### Empty-queue pops (C10) -/

/-- C10: on an empty queue (`root` null) both `delete_min` and `pop_min`
return false and change nothing; `pop_min` leaves its output arguments
unwritten. -/
theorem claim_C10 (q : PQ) (h : q.root = none) :
    deleteMin q = (false, q) ∧ popMinQ q = (none, q) := by
  constructor
  · unfold deleteMin; rw [h]
  · unfold popMinQ; rw [h]

theorem claim_C10_witness :
    deleteMin (resetP (mkP 2)) = (false, resetP (mkP 2)) ∧
      popMinQ (resetP (mkP 2)) = (none, resetP (mkP 2)) :=
  claim_C10 (resetP (mkP 2)) rfl

/-! ### Unknown options (C2) -/

/-- C2: a params dict containing any key outside the recognized option set
makes `_input_parser.__init__` raise a `ValueError`, uniformly in the input
graphs — i.e. before any graph parsing or heuristic work. -/
theorem claim_C2 (p : MMParams) (name : String)
    (hmem : name ∈ p.keys) (hbad : validNames.contains name = false) :
    ∀ S T, inputParserInit p S T = .error PErr.valueError := by
  intro S T
  unfold inputParserInit
  have hsome : (p.keys.find? (fun n => !(validNames.contains n))).isSome := by
    rw [List.find?_isSome]
    exact ⟨name, hmem, by rw [hbad]; rfl⟩
  match hfind : p.keys.find? (fun n => !(validNames.contains n)) with
  | some n => rfl
  | none => rw [hfind] at hsome; simp at hsome

/-! ### Pairing-heap library lemmas -/

theorem nlt_irrefl (v : Nat → Int) (a : Nat) : ¬ nlt v a a := by
  unfold nlt; omega

theorem nlt_trans {v : Nat → Int} {a b c : Nat} (h1 : nlt v a b) (h2 : nlt v b c) :
    nlt v a c := by
  unfold nlt at h1 h2 ⊢; omega

theorem nlt_total {v : Nat → Int} {a b : Nat} (h : a ≠ b) : nlt v a b ∨ nlt v b a := by
  unfold nlt; omega

theorem keysT_node (k : Nat) (cs : List KTree) :
    keysT (KTree.node k cs) = k :: keysF cs := rfl

theorem keysF_nil : keysF [] = [] := rfl

theorem keysF_cons (c : KTree) (cs : List KTree) :
    keysF (c :: cs) = keysT c ++ keysF cs := rfl

theorem key_node (k : Nat) (cs : List KTree) : (KTree.node k cs).key = k := rfl

theorem key_mem_keysT (t : KTree) : t.key ∈ keysT t := by
  match t with
  | .node k cs => rw [keysT_node]; exact List.mem_cons_self k _

theorem keysF_append (l1 l2 : List KTree) :
    keysF (l1 ++ l2) = keysF l1 ++ keysF l2 := by
  induction l1 with
  | nil => simp [keysF_nil, keysF]
  | cons c cs ih => simp [keysF_cons, ih, List.append_assoc]

theorem keysF_reverse (l : List KTree) : (keysF l.reverse).Perm (keysF l) := by
  induction l with
  | nil => exact List.Perm.refl _
  | cons c cs ih =>
    rw [List.reverse_cons, keysF_append, keysF_cons]
    have h1 : (keysF cs.reverse ++ keysF [c]).Perm (keysF [c] ++ keysF cs.reverse) :=
      List.perm_append_comm
    have h2 : (keysF [c] ++ keysF cs.reverse).Perm (keysF [c] ++ keysF cs) :=
      ih.append_left _
    have h3 : keysF [c] ++ keysF cs = keysT c ++ keysF cs := by
      rw [keysF_cons, keysF_nil, List.append_nil]
    exact (h1.trans h2).trans (h3 ▸ List.Perm.refl _)

theorem mem_keysF {j : Nat} {cs : List KTree} :
    j ∈ keysF cs ↔ ∃ c ∈ cs, j ∈ keysT c := by
  induction cs with
  | nil => simp [keysF_nil]
  | cons c cs ih => simp [keysF_cons, ih]

theorem ktree_ind {P : KTree → Prop}
    (h : ∀ k cs, (∀ c, c ∈ cs → P c) → P (KTree.node k cs)) : ∀ t, P t
  | .node k cs => h k cs (fun c hc => ktree_ind h c)
termination_by t => sizeOf t
decreasing_by
  simp only [KTree.node.sizeOf_spec]
  have := List.sizeOf_lt_of_mem hc
  omega

theorem heapOk_node (v : Nat → Int) (k : Nat) (cs : List KTree) :
    heapOk v (KTree.node k cs) = heapOkL v k cs := by
  rw [heapOk]

theorem heapOkL_iff {v : Nat → Int} {k : Nat} {cs : List KTree} :
    heapOkL v k cs = true ↔ ∀ c ∈ cs, nlt v k c.key ∧ heapOk v c = true := by
  induction cs with
  | nil => simp [heapOkL]
  | cons c cs ih =>
    rw [heapOkL]
    simp only [Bool.and_eq_true, decide_eq_true_eq, ih, List.mem_cons]
    constructor
    · rintro ⟨⟨h1, h2⟩, h3⟩ x hx
      rcases hx with rfl | hx
      · exact ⟨h1, h2⟩
      · exact h3 x hx
    · intro h
      exact ⟨⟨(h c (Or.inl rfl)).1, (h c (Or.inl rfl)).2⟩, fun x hx => h x (Or.inr hx)⟩

theorem heapOk_root_lt {v : Nat → Int} :
    ∀ t, heapOk v t = true → ∀ j ∈ keysT t, j ≠ t.key → nlt v t.key j := by
  apply ktree_ind
  intro k cs ih hok j hj hne
  rw [keysT_node] at hj
  rw [key_node] at hne ⊢
  rcases List.mem_cons.1 hj with rfl | hj
  · exact absurd rfl hne
  · obtain ⟨c, hc, hjc⟩ := mem_keysF.1 hj
    rw [heapOk_node, heapOkL_iff] at hok
    obtain ⟨hlt, hcok⟩ := hok c hc
    by_cases hjk : j = c.key
    · exact hjk ▸ hlt
    · exact nlt_trans hlt (ih c hc hcok j hjc hjk)

theorem heapOk_congr {v1 v2 : Nat → Int} :
    ∀ t, (∀ j ∈ keysT t, v1 j = v2 j) → heapOk v1 t = heapOk v2 t := by
  apply ktree_ind
  intro k cs ih hagree
  rw [heapOk_node, heapOk_node]
  by_cases h1 : heapOkL v1 k cs = true
  · rw [h1]
    symm
    rw [heapOkL_iff] at h1 ⊢
    intro c hc
    obtain ⟨hlt, hok⟩ := h1 c hc
    have hk : v1 k = v2 k := hagree k (by rw [keysT_node]; exact List.mem_cons_self _ _)
    have hck : v1 c.key = v2 c.key := by
      apply hagree
      rw [keysT_node]
      exact List.mem_cons_of_mem _ (mem_keysF.2 ⟨c, hc, key_mem_keysT c⟩)
    constructor
    · unfold nlt at hlt ⊢; omega
    · rw [← ih c hc (fun j hj => hagree j (by
        rw [keysT_node]
        exact List.mem_cons_of_mem _ (mem_keysF.2 ⟨c, hc, hj⟩)))]
      exact hok
  · rw [Bool.eq_false_iff.2 h1]
    symm
    rw [Bool.eq_false_iff]
    intro h2
    apply h1
    rw [heapOkL_iff] at h2 ⊢
    intro c hc
    obtain ⟨hlt, hok⟩ := h2 c hc
    have hk : v1 k = v2 k := hagree k (by rw [keysT_node]; exact List.mem_cons_self _ _)
    have hck : v1 c.key = v2 c.key := by
      apply hagree
      rw [keysT_node]
      exact List.mem_cons_of_mem _ (mem_keysF.2 ⟨c, hc, key_mem_keysT c⟩)
    constructor
    · unfold nlt at hlt ⊢; omega
    · rw [ih c hc (fun j hj => hagree j (by
        rw [keysT_node]
        exact List.mem_cons_of_mem _ (mem_keysF.2 ⟨c, hc, hj⟩)))]
      exact hok

theorem keysT_mergeRootsC (a b : KTree) :
    (keysT (mergeRootsC a b)).Perm (keysT a ++ keysT b) := by
  match a with
  | .node k cs =>
    rw [mergeRootsC, keysT_node, keysF_cons, keysT_node]
    exact (@List.perm_append_comm _ (keysT b) (keysF cs)).cons k

theorem heapOk_mergeRootsC {v : Nat → Int} {a b : KTree}
    (ha : heapOk v a = true) (hb : heapOk v b = true) (hlt : nlt v a.key b.key) :
    heapOk v (mergeRootsC a b) = true := by
  match a with
  | .node k cs =>
    rw [mergeRootsC, heapOk_node, heapOkL_iff]
    intro c hc
    rcases List.mem_cons.1 hc with rfl | hc
    · exact ⟨hlt, hb⟩
    · rw [heapOk_node, heapOkL_iff] at ha
      exact ha c hc

theorem keysT_mergeRootsU (v : Nat → Int) (a b : KTree) :
    (keysT (mergeRootsU v a b)).Perm (keysT a ++ keysT b) := by
  unfold mergeRootsU
  split
  · exact keysT_mergeRootsC a b
  · exact (keysT_mergeRootsC b a).trans List.perm_append_comm

theorem heapOk_mergeRootsU {v : Nat → Int} {a b : KTree} (hne : a.key ≠ b.key)
    (ha : heapOk v a = true) (hb : heapOk v b = true) :
    heapOk v (mergeRootsU v a b) = true := by
  unfold mergeRootsU
  split
  · next h => exact heapOk_mergeRootsC ha hb h
  · next h =>
    rcases nlt_total hne with h1 | h1
    · exact absurd h1 h
    · exact heapOk_mergeRootsC hb ha h1

theorem mergeRootsU_congr {v1 v2 : Nat → Int} {a b : KTree}
    (h1 : v1 a.key = v2 a.key) (h2 : v1 b.key = v2 b.key) :
    mergeRootsU v1 a b = mergeRootsU v2 a b := by
  unfold mergeRootsU
  have : nlt v1 a.key b.key ↔ nlt v2 a.key b.key := by unfold nlt; omega
  by_cases h : nlt v1 a.key b.key
  · rw [if_pos h, if_pos (this.1 h)]
  · rw [if_neg h, if_neg (fun hh => h (this.2 hh))]

theorem keysF_pairPass (v : Nat → Int) (l : List KTree) :
    (keysF (pairPass v l)).Perm (keysF l) := by
  match l with
  | [] => exact List.Perm.refl _
  | [a] => exact List.Perm.refl _
  | a :: b :: rest =>
    rw [pairPass, keysF_cons, keysF_cons, keysF_cons]
    have ih := keysF_pairPass v rest
    have hm := keysT_mergeRootsU v a b
    calc keysT (mergeRootsU v a b) ++ keysF (pairPass v rest)
        |>.Perm ((keysT a ++ keysT b) ++ keysF rest) := (hm.append ih).trans (List.Perm.refl _)
      _ = keysT a ++ (keysT b ++ keysF rest) := List.append_assoc _ _ _

theorem pairPass_heap {v : Nat → Int} :
    ∀ l : List KTree, (keysF l).Nodup → (∀ t ∈ l, heapOk v t = true) →
      ∀ t ∈ pairPass v l, heapOk v t = true := by
  intro l
  match l with
  | [] => intro _ _ t ht; simp [pairPass] at ht
  | [a] => intro _ h t ht; simp [pairPass] at ht; exact ht ▸ h a (by simp)
  | a :: b :: rest =>
    intro hnd hok t ht
    rw [pairPass] at ht
    have hne : a.key ≠ b.key := by
      rw [keysF_cons, keysF_cons] at hnd
      have hd := (List.nodup_append.1 hnd).2.2
      intro he
      have hb : a.key ∈ keysT b ++ keysF rest := by
        rw [he]
        exact List.mem_append_left _ (key_mem_keysT b)
      exact hd (key_mem_keysT a) hb
    rcases List.mem_cons.1 ht with rfl | ht
    · exact heapOk_mergeRootsU hne (hok a (by simp)) (hok b (by simp))
    · have hnd2 : (keysF rest).Nodup := by
        rw [keysF_cons, keysF_cons] at hnd
        exact ((List.nodup_append.1 (List.nodup_append.1 hnd).2.1)).2.1
      exact pairPass_heap rest hnd2 (fun x hx => hok x (by simp [hx])) t ht

theorem pairPass_congr {v1 v2 : Nat → Int} :
    ∀ l : List KTree, (∀ j ∈ keysF l, v1 j = v2 j) → pairPass v1 l = pairPass v2 l := by
  intro l
  match l with
  | [] => intro _; rfl
  | [a] => intro _; rfl
  | a :: b :: rest =>
    intro h
    rw [pairPass, pairPass]
    have hrec := pairPass_congr rest (fun j hj => h j (by
      rw [keysF_cons, keysF_cons]
      exact List.mem_append_right _ (List.mem_append_right _ hj)))
    rw [hrec, mergeRootsU_congr
      (h a.key (by rw [keysF_cons]; exact List.mem_append_left _ (key_mem_keysT a)))
      (h b.key (by
        rw [keysF_cons, keysF_cons]
        exact List.mem_append_right _ (List.mem_append_left _ (key_mem_keysT b))))]

theorem pairPass_ne_nil {v : Nat → Int} {l : List KTree} (h : l ≠ []) :
    pairPass v l ≠ [] := by
  match l with
  | [] => exact absurd rfl h
  | [a] => simp [pairPass]
  | a :: b :: rest => simp [pairPass]

theorem foldl_mergeU_keys (v : Nat → Int) :
    ∀ (rs : List KTree) (a : KTree),
      (keysT (rs.foldl (mergeRootsU v) a)).Perm (keysT a ++ keysF rs) := by
  intro rs
  induction rs with
  | nil => intro a; simp [keysF_nil]
  | cons r rs ih =>
    intro a
    rw [List.foldl_cons, keysF_cons]
    calc keysT ((rs.foldl (mergeRootsU v)) (mergeRootsU v a r))
        |>.Perm (keysT (mergeRootsU v a r) ++ keysF rs) := ih _
      _ |>.Perm ((keysT a ++ keysT r) ++ keysF rs) :=
          (keysT_mergeRootsU v a r).append_right _
      _ = keysT a ++ (keysT r ++ keysF rs) := List.append_assoc _ _ _

theorem foldl_mergeU_heap (v : Nat → Int) :
    ∀ (rs : List KTree) (a : KTree), heapOk v a = true →
      (∀ t ∈ rs, heapOk v t = true) → (keysT a ++ keysF rs).Nodup →
      heapOk v (rs.foldl (mergeRootsU v) a) = true := by
  intro rs
  induction rs with
  | nil => intro a ha _ _; exact ha
  | cons r rs ih =>
    intro a ha hok hnd
    rw [List.foldl_cons]
    rw [keysF_cons, ← List.append_assoc] at hnd
    have hnd1 : (keysT a ++ keysT r).Nodup := (List.nodup_append.1 hnd).1
    have hne : a.key ≠ r.key := by
      have hd := (List.nodup_append.1 hnd1).2.2
      intro he
      have hr : a.key ∈ keysT r := by rw [he]; exact key_mem_keysT r
      exact hd (key_mem_keysT a) hr
    apply ih
    · exact heapOk_mergeRootsU hne ha (hok r (by simp))
    · intro t ht; exact hok t (by simp [ht])
    · exact ((keysT_mergeRootsU v a r).append_right (keysF rs)).nodup_iff.2 hnd

theorem foldl_mergeU_congr {v1 v2 : Nat → Int} :
    ∀ (rs : List KTree) (a : KTree), (∀ j ∈ keysT a ++ keysF rs, v1 j = v2 j) →
      rs.foldl (mergeRootsU v1) a = rs.foldl (mergeRootsU v2) a := by
  intro rs
  induction rs with
  | nil => intro a _; rfl
  | cons r rs ih =>
    intro a h
    rw [List.foldl_cons, List.foldl_cons]
    have hm : mergeRootsU v1 a r = mergeRootsU v2 a r :=
      mergeRootsU_congr
        (h a.key (List.mem_append_left _ (key_mem_keysT a)))
        (h r.key (by
          rw [keysF_cons]
          exact List.mem_append_right _ (List.mem_append_left _ (key_mem_keysT r))))
    rw [hm]
    apply ih
    intro j hj
    rcases List.mem_append.1 hj with hj | hj
    · have := (keysT_mergeRootsU v2 a r).mem_iff.1 hj
      rcases List.mem_append.1 this with hj2 | hj2
      · exact h j (List.mem_append_left _ hj2)
      · exact h j (by
          rw [keysF_cons]
          exact List.mem_append_right _ (List.mem_append_left _ hj2))
    · exact h j (by
        rw [keysF_cons]
        exact List.mem_append_right _ (List.mem_append_right _ hj))

theorem mergePairs_eq_none {v : Nat → Int} {cs : List KTree} :
    mergePairs v cs = none ↔ cs = [] := by
  unfold mergePairs
  constructor
  · intro h
    by_cases hc : cs = []
    · exact hc
    · exfalso
      have h1 : pairPass v cs ≠ [] := pairPass_ne_nil hc
      have h2 : (pairPass v cs).reverse ≠ [] := by
        intro hr; exact h1 (List.reverse_eq_nil_iff.1 hr)
      match hrev : (pairPass v cs).reverse with
      | [] => exact h2 hrev
      | a :: rs => rw [hrev] at h; simp at h
  · intro h
    subst h
    rfl

theorem mergePairs_spec {v : Nat → Int} {cs : List KTree} {t : KTree}
    (hnd : (keysF cs).Nodup) (hok : ∀ c ∈ cs, heapOk v c = true)
    (he : mergePairs v cs = some t) :
    heapOk v t = true ∧ (keysT t).Perm (keysF cs) := by
  unfold mergePairs at he
  match hrev : (pairPass v cs).reverse with
  | [] => rw [hrev] at he; simp at he
  | a :: rs =>
    rw [hrev] at he
    simp only [Option.some.injEq] at he
    subst he
    have hall : ∀ x ∈ a :: rs, heapOk v x = true := by
      intro x hx
      apply pairPass_heap cs hnd hok
      have : x ∈ (pairPass v cs).reverse := hrev ▸ hx
      exact List.mem_reverse.1 this
    have hkeys : (keysF (a :: rs)).Perm (keysF cs) := by
      calc keysF (a :: rs) = keysF (pairPass v cs).reverse := by rw [hrev]
        _ |>.Perm (keysF (pairPass v cs)) := keysF_reverse _
        _ |>.Perm (keysF cs) := keysF_pairPass v cs
    have hnd2 : (keysF (a :: rs)).Nodup := hkeys.nodup_iff.2 hnd
    rw [keysF_cons] at hnd2 hkeys
    constructor
    · exact foldl_mergeU_heap v rs a (hall a (by simp))
        (fun x hx => hall x (by simp [hx])) hnd2
    · exact (foldl_mergeU_keys v rs a).trans hkeys

theorem mergePairs_congr {v1 v2 : Nat → Int} {cs : List KTree}
    (h : ∀ j ∈ keysF cs, v1 j = v2 j) : mergePairs v1 cs = mergePairs v2 cs := by
  unfold mergePairs
  rw [pairPass_congr cs h]
  match hrev : (pairPass v2 cs).reverse with
  | [] => rfl
  | a :: rs =>
    have hsub : ∀ j ∈ keysT a ++ keysF rs, v1 j = v2 j := by
      intro j hj
      apply h
      have h1 : j ∈ keysF (a :: rs) := by rw [keysF_cons]; exact hj
      have h2 : j ∈ keysF (pairPass v2 cs).reverse := hrev ▸ h1
      exact (keysF_pairPass v2 cs).mem_iff.1 ((keysF_reverse _).mem_iff.1 h2)
    show some (rs.foldl (mergeRootsU v1) a) = some (rs.foldl (mergeRootsU v2) a)
    rw [foldl_mergeU_congr rs a hsub]

mutual

theorem removeK_spec {k : Nat} :
    ∀ (t sub rem : KTree), removeK k t = some (sub, rem) →
      sub.key = k ∧ rem.key = t.key ∧ (keysT t).Perm (keysT sub ++ keysT rem) := by
  intro t sub rem h
  match t with
  | .node j cs =>
    rw [removeK] at h
    match h2 : removeKL k cs with
    | some (s2, cs2) =>
      rw [h2] at h
      simp only [Option.some.injEq, Prod.mk.injEq] at h
      obtain ⟨rfl, rfl⟩ := h
      obtain ⟨hk, hperm⟩ := removeKL_spec cs s2 cs2 h2
      refine ⟨hk, rfl, ?_⟩
      rw [keysT_node, keysT_node]
      calc (j :: keysF cs).Perm (j :: (keysT s2 ++ keysF cs2)) := hperm.cons j
        _ |>.Perm (keysT s2 ++ (j :: keysF cs2)) := List.perm_middle.symm
    | none => rw [h2] at h; simp at h

theorem removeKL_spec {k : Nat} :
    ∀ (cs : List KTree) (sub : KTree) (cs2 : List KTree),
      removeKL k cs = some (sub, cs2) →
      sub.key = k ∧ (keysF cs).Perm (keysT sub ++ keysF cs2) := by
  intro cs sub cs2 h
  match cs with
  | [] => rw [removeKL] at h; exact absurd h (by simp)
  | c :: cs =>
    rw [removeKL] at h
    by_cases hc : c.key = k
    · rw [if_pos hc] at h
      simp only [Option.some.injEq, Prod.mk.injEq] at h
      obtain ⟨rfl, rfl⟩ := h
      exact ⟨hc, by rw [keysF_cons]⟩
    · rw [if_neg hc] at h
      match h2 : removeK k c with
      | some (s2, c2) =>
        rw [h2] at h
        simp only [Option.some.injEq, Prod.mk.injEq] at h
        obtain ⟨rfl, rfl⟩ := h
        obtain ⟨hk, _, hperm⟩ := removeK_spec c s2 c2 h2
        refine ⟨hk, ?_⟩
        rw [keysF_cons, keysF_cons]
        calc (keysT c ++ keysF cs).Perm ((keysT s2 ++ keysT c2) ++ keysF cs) :=
              hperm.append_right _
          _ = keysT s2 ++ (keysT c2 ++ keysF cs) := List.append_assoc _ _ _
      | none =>
        rw [h2] at h
        match h3 : removeKL k cs with
        | some (s3, cs3) =>
          rw [h3] at h
          simp only [Option.some.injEq, Prod.mk.injEq] at h
          obtain ⟨rfl, rfl⟩ := h
          obtain ⟨hk, hperm⟩ := removeKL_spec cs s3 cs3 h3
          refine ⟨hk, ?_⟩
          rw [keysF_cons, keysF_cons]
          calc (keysT c ++ keysF cs).Perm (keysT c ++ (keysT s3 ++ keysF cs3)) :=
                hperm.append_left _
            _ = (keysT c ++ keysT s3) ++ keysF cs3 := (List.append_assoc _ _ _).symm
            _ |>.Perm ((keysT s3 ++ keysT c) ++ keysF cs3) :=
                List.perm_append_comm.append_right _
            _ = keysT s3 ++ (keysT c ++ keysF cs3) := List.append_assoc _ _ _
        | none => rw [h3] at h; exact absurd h (by simp)

end

mutual

theorem removeK_heap {v : Nat → Int} {k : Nat} :
    ∀ (t sub rem : KTree), heapOk v t = true → removeK k t = some (sub, rem) →
      heapOk v sub = true ∧ heapOk v rem = true := by
  intro t sub rem hok h
  match t with
  | .node j cs =>
    rw [removeK] at h
    match h2 : removeKL k cs with
    | some (s2, cs2) =>
      rw [h2] at h
      simp only [Option.some.injEq, Prod.mk.injEq] at h
      obtain ⟨rfl, rfl⟩ := h
      rw [heapOk_node] at hok
      obtain ⟨h1, h2⟩ := removeKL_heap j cs s2 cs2 hok h2
      exact ⟨h1, by rw [heapOk_node]; exact h2⟩
    | none => rw [h2] at h; simp at h

theorem removeKL_heap {v : Nat → Int} {k : Nat} :
    ∀ (j : Nat) (cs : List KTree) (sub : KTree) (cs2 : List KTree),
      heapOkL v j cs = true → removeKL k cs = some (sub, cs2) →
      heapOk v sub = true ∧ heapOkL v j cs2 = true := by
  intro j cs sub cs2 hok h
  match cs with
  | [] => rw [removeKL] at h; exact absurd h (by simp)
  | c :: cs =>
    rw [removeKL] at h
    rw [heapOkL, Bool.and_eq_true, Bool.and_eq_true, decide_eq_true_eq] at hok
    obtain ⟨⟨hjc, hcok⟩, hcsok⟩ := hok
    by_cases hc : c.key = k
    · rw [if_pos hc] at h
      simp only [Option.some.injEq, Prod.mk.injEq] at h
      obtain ⟨rfl, rfl⟩ := h
      exact ⟨hcok, hcsok⟩
    · rw [if_neg hc] at h
      match h2 : removeK k c with
      | some (s2, c2) =>
        rw [h2] at h
        simp only [Option.some.injEq, Prod.mk.injEq] at h
        obtain ⟨rfl, rfl⟩ := h
        obtain ⟨hsub, hc2⟩ := removeK_heap c s2 c2 hcok h2
        obtain ⟨_, hkey, _⟩ := removeK_spec c s2 c2 h2
        refine ⟨hsub, ?_⟩
        rw [heapOkL, Bool.and_eq_true, Bool.and_eq_true, decide_eq_true_eq]
        exact ⟨⟨hkey ▸ hjc, hc2⟩, hcsok⟩
      | none =>
        rw [h2] at h
        match h3 : removeKL k cs with
        | some (s3, cs3) =>
          rw [h3] at h
          simp only [Option.some.injEq, Prod.mk.injEq] at h
          obtain ⟨rfl, rfl⟩ := h
          obtain ⟨hsub, hcs3⟩ := removeKL_heap j cs s3 cs3 hcsok h3
          refine ⟨hsub, ?_⟩
          rw [heapOkL, Bool.and_eq_true, Bool.and_eq_true, decide_eq_true_eq]
          exact ⟨⟨hjc, hcok⟩, hcs3⟩
        | none => rw [h3] at h; exact absurd h (by simp)

end

mutual

theorem removeK_isSome {k : Nat} :
    ∀ t : KTree, k ∈ keysT t → k ≠ t.key → (removeK k t).isSome = true := by
  intro t hmem hne
  match t with
  | .node j cs =>
    rw [removeK]
    rw [keysT_node] at hmem
    rw [key_node] at hne
    rcases List.mem_cons.1 hmem with rfl | hmem
    · exact absurd rfl hne
    · have := removeKL_isSome cs hmem
      match h2 : removeKL k cs with
      | some (s2, cs2) => simp
      | none => rw [h2] at this; simp at this

theorem removeKL_isSome {k : Nat} :
    ∀ cs : List KTree, k ∈ keysF cs → (removeKL k cs).isSome = true := by
  intro cs hmem
  match cs with
  | [] => rw [keysF_nil] at hmem; simp at hmem
  | c :: cs =>
    rw [removeKL]
    by_cases hc : c.key = k
    · rw [if_pos hc]; simp
    · rw [if_neg hc]
      rw [keysF_cons] at hmem
      rcases List.mem_append.1 hmem with hmem | hmem
      · have := removeK_isSome c hmem (fun he => hc he.symm)
        match h2 : removeK k c with
        | some (s2, c2) => simp
        | none => rw [h2] at this; simp at this
      · have := removeKL_isSome cs hmem
        match h2 : removeK k c with
        | some (s2, c2) => simp
        | none =>
          match h3 : removeKL k cs with
          | some (s3, cs3) => simp
          | none => rw [h3] at this; simp at this

end

theorem removeK_none_of_not_mem {k : Nat} {t : KTree} (h : k ∉ keysT t) :
    removeK k t = none := by
  match h2 : removeK k t with
  | none => rfl
  | some (sub, rem) =>
    obtain ⟨hk, _, hperm⟩ := removeK_spec t sub rem h2
    exact absurd (hperm.mem_iff.2 (List.mem_append_left _ (hk ▸ key_mem_keysT sub))) h

theorem heapOk_decreaseRoot {vals : Nat → Int} {t : KTree} {k : Nat} {w : Int}
    (hnd : (keysT t).Nodup) (hok : heapOk vals t = true) (hk : t.key = k)
    (hw : w < vals k) : heapOk (Function.update vals k w) t = true := by
  match t with
  | .node j cs =>
    rw [key_node] at hk
    subst hk
    rw [keysT_node] at hnd
    have hnotin : j ∉ keysF cs := (List.nodup_cons.1 hnd).1
    rw [heapOk_node, heapOkL_iff] at hok ⊢
    intro c hc
    obtain ⟨hlt, hcok⟩ := hok c hc
    have hck : c.key ∈ keysF cs := mem_keysF.2 ⟨c, hc, key_mem_keysT c⟩
    have hne : c.key ≠ j := by
      intro he
      apply hnotin
      rw [← he]
      exact hck
    constructor
    · have h1 : Function.update vals j w j = w := Function.update_same j w vals
      have h2 : Function.update vals j w c.key = vals c.key :=
        Function.update_noteq hne w vals
      unfold nlt at hlt ⊢
      omega
    · have hagr : ∀ j2 ∈ keysT c, Function.update vals j w j2 = vals j2 := by
        intro j2 hj2
        apply Function.update_noteq
        intro he
        apply hnotin
        rw [← he]
        exact mem_keysF.2 ⟨c, hc, hj2⟩
      rw [heapOk_congr c hagr]
      exact hcok

theorem mergeInsert_spec {vals2 : Nat → Int} {root : Option KTree} {k : Nat}
    (hk : k ∉ rootKeys root)
    (hwf : ∀ t, root = some t → (keysT t).Nodup ∧ heapOk vals2 t = true) :
    heapOk vals2 (mergeRoots vals2 (KTree.node k []) root) = true ∧
      (keysT (mergeRoots vals2 (KTree.node k []) root)).Perm (k :: rootKeys root) := by
  match root with
  | none =>
    constructor
    · rw [mergeRoots, heapOk_node]; rfl
    · exact List.Perm.refl _
  | some t =>
    obtain ⟨hnd, hok⟩ := hwf t rfl
    have hkt : k ∉ keysT t := by rw [rootKeys] at hk; exact hk
    have hleaf : heapOk vals2 (KTree.node k []) = true := by rw [heapOk_node]; rfl
    have hne : (KTree.node k []).key ≠ t.key := by
      rw [key_node]
      intro he
      apply hkt
      rw [he]
      exact key_mem_keysT t
    constructor
    · exact heapOk_mergeRootsU hne hleaf hok
    · rw [mergeRoots]
      have := keysT_mergeRootsU vals2 (KTree.node k []) t
      rw [keysT_node, keysF_nil] at this
      rw [rootKeys]
      exact this

theorem decCore_spec {vals : Nat → Int} {root : Option KTree} {k : Nat} {w : Int}
    (hwf : ∀ t, root = some t → (keysT t).Nodup ∧ heapOk vals t = true)
    (hw : w < vals k) :
    heapOk (Function.update vals k w) (decCore (Function.update vals k w) root k) = true ∧
      (keysT (decCore (Function.update vals k w) root k)).Perm
        (if k ∈ rootKeys root then rootKeys root else k :: rootKeys root) := by
  set vals2 := Function.update vals k w with hv2
  match root with
  | none =>
    rw [decCore]
    constructor
    · rw [heapOk_node]; rfl
    · rw [rootKeys, keysT_node, keysF_nil, if_neg (List.not_mem_nil k)]
  | some t =>
    obtain ⟨hnd, hok⟩ := hwf t rfl
    rw [decCore]
    by_cases hroot : t.key = k
    · rw [if_pos hroot]
      constructor
      · exact heapOk_decreaseRoot hnd hok hroot hw
      · have hkin : k ∈ keysT t := by rw [← hroot]; exact key_mem_keysT t
        rw [rootKeys, if_pos hkin]
    · rw [if_neg hroot]
      match hrem : removeK k t with
      | some (sub, rem) =>
        obtain ⟨hsk, hrk, hperm⟩ := removeK_spec t sub rem hrem
        obtain ⟨hsok, hrok⟩ := removeK_heap t sub rem hok hrem
        have hnd2 : (keysT sub ++ keysT rem).Nodup := hperm.nodup_iff.1 hnd
        have hndsub : (keysT sub).Nodup := (List.nodup_append.1 hnd2).1
        have hdisj := (List.nodup_append.1 hnd2).2.2
        have hksub : k ∈ keysT sub := by rw [← hsk]; exact key_mem_keysT sub
        have hkrem : k ∉ keysT rem := fun hmem => hdisj hksub hmem
        have hsok2 : heapOk vals2 sub = true := heapOk_decreaseRoot hndsub hsok hsk hw
        have hrok2 : heapOk vals2 rem = true := by
          have hagr : ∀ j ∈ keysT rem, Function.update vals k w j = vals j := by
            intro j hj
            apply Function.update_noteq
            intro he
            apply hkrem
            rw [← he]
            exact hj
          rw [hv2, heapOk_congr rem hagr]
          exact hrok
        have hne : sub.key ≠ rem.key := by
          intro he
          apply hdisj (key_mem_keysT sub)
          rw [he]
          exact key_mem_keysT rem
        constructor
        · exact heapOk_mergeRootsU hne hsok2 hrok2
        · have hkin : k ∈ keysT t := hperm.mem_iff.2 (List.mem_append_left _ hksub)
          rw [rootKeys, if_pos hkin]
          exact (keysT_mergeRootsU vals2 sub rem).trans hperm.symm
      | none =>
        have hkout : k ∉ keysT t := by
          intro hmem
          have := removeK_isSome t hmem (fun he => hroot he.symm)
          rw [hrem] at this
          simp at this
        have hok2 : heapOk vals2 t = true := by
          have hagr : ∀ j ∈ keysT t, Function.update vals k w j = vals j := by
            intro j hj
            apply Function.update_noteq
            intro he
            apply hkout
            rw [← he]
            exact hj
          rw [hv2, heapOk_congr t hagr]
          exact hok
        have hleaf : heapOk vals2 (KTree.node k []) = true := by rw [heapOk_node]; rfl
        have hne : (KTree.node k []).key ≠ t.key := by
          rw [key_node]
          intro he
          apply hkout
          rw [he]
          exact key_mem_keysT t
        constructor
        · exact heapOk_mergeRootsU hne hleaf hok2
        · rw [rootKeys, if_neg hkout]
          have := keysT_mergeRootsU vals2 (KTree.node k []) t
          rw [keysT_node, keysF_nil] at this
          exact this

theorem inTreeB_iff {k : Nat} {root : Option KTree} :
    inTreeB k root = true ↔ k ∈ rootKeys root := by
  match root with
  | none =>
    rw [inTreeB, rootKeys]
    simp
  | some t =>
    rw [inTreeB, rootKeys]
    exact List.elem_iff

theorem WFvals_update_not_mem {vals : Nat → Int} {root : Option KTree} {k : Nat}
    {w : Int} (hk : k ∉ rootKeys root)
    (hwf : ∀ t, root = some t → (keysT t).Nodup ∧ heapOk vals t = true) :
    ∀ t, root = some t → (keysT t).Nodup ∧ heapOk (Function.update vals k w) t = true := by
  intro t ht
  obtain ⟨hnd, hok⟩ := hwf t ht
  refine ⟨hnd, ?_⟩
  have hkt : k ∉ keysT t := by subst ht; rw [rootKeys] at hk; exact hk
  have hagr : ∀ j ∈ keysT t, Function.update vals k w j = vals j := by
    intro j hj
    apply Function.update_noteq
    intro he
    apply hkt
    rw [← he]
    exact hj
  rw [heapOk_congr t hagr]
  exact hok

theorem WF_def {q : PQ} : WF q ↔ ∀ t, q.root = some t →
    (keysT t).Nodup ∧ heapOk q.vals t = true := Iff.rfl

theorem WF_insert {nv : Nat} {vals : Nat → Int} {root : Option KTree} {k : Nat}
    {v : Int} (hk : inTreeB k root = false)
    (hwf : ∀ t, root = some t → (keysT t).Nodup ∧ heapOk vals t = true) :
    let vals2 := Function.update vals k v
    WF ⟨nv, vals2, some (mergeRoots vals2 (KTree.node k []) root)⟩ := by
  intro vals2
  have hkout : k ∉ rootKeys root := by
    intro hmem
    rw [← inTreeB_iff] at hmem
    rw [hk] at hmem
    exact absurd hmem (by simp)
  have hwf2 := WFvals_update_not_mem (w := v) hkout hwf
  obtain ⟨hok, hperm⟩ := mergeInsert_spec hkout hwf2
  intro t2 ht2
  simp only [Option.some.injEq] at ht2
  subst ht2
  constructor
  · apply hperm.nodup_iff.2
    apply List.nodup_cons.2
    refine ⟨hkout, ?_⟩
    match root with
    | none => rw [rootKeys]; exact List.nodup_nil
    | some t => rw [rootKeys]; exact (hwf t rfl).1
  · exact hok

theorem WF_decrease {nv : Nat} {vals : Nat → Int} {root : Option KTree} {k : Nat}
    {w : Int} (hw : w < vals k)
    (hwf : ∀ t, root = some t → (keysT t).Nodup ∧ heapOk vals t = true) :
    let vals2 := Function.update vals k w
    WF ⟨nv, vals2, some (decCore vals2 root k)⟩ := by
  intro vals2
  obtain ⟨hok, hperm⟩ := decCore_spec hwf hw
  intro t2 ht2
  simp only [Option.some.injEq] at ht2
  subst ht2
  refine ⟨?_, hok⟩
  apply hperm.nodup_iff.2
  by_cases hkin : k ∈ rootKeys root
  · rw [if_pos hkin]
    match root with
    | none => rw [rootKeys]; exact List.nodup_nil
    | some t => rw [rootKeys]; exact (hwf t rfl).1
  · rw [if_neg hkin]
    apply List.nodup_cons.2
    refine ⟨hkin, ?_⟩
    match root with
    | none => rw [rootKeys]; exact List.nodup_nil
    | some t => rw [rootKeys]; exact (hwf t rfl).1

theorem setV_WF {q q2 : PQ} {k : Nat} {v : Int} (hwf : WF q)
    (hguard : ¬(inTreeB k q.root = true ∧ q.vals k < v))
    (hs : setV q k v = some q2) : WF q2 := by
  unfold setV at hs
  by_cases hb : k < q.nv
  · rw [if_pos hb] at hs
    unfold svCore at hs
    by_cases hin : inTreeB k q.root = true
    · rw [if_pos hin] at hs
      by_cases hlt : v < q.vals k
      · rw [if_pos hlt] at hs
        simp only [Option.map_some', Option.some.injEq] at hs
        subst hs
        exact WF_decrease hlt hwf
      · rw [if_neg hlt] at hs
        have hgt : ¬(q.vals k < v) := fun h => hguard ⟨hin, h⟩
        rw [if_neg hgt] at hs
        simp only [Option.map_some', Option.some.injEq] at hs
        subst hs
        exact hwf
    · rw [if_neg hin] at hs
      simp only [Option.map_some', Option.some.injEq] at hs
      subst hs
      exact WF_insert (Bool.not_eq_true _ ▸ hin) hwf
  · rw [if_neg hb] at hs
    exact absurd hs (by simp)

theorem checkDec_WF {q q2 : PQ} {k : Nat} {v : Int} {b : Bool} (hwf : WF q)
    (hs : checkDec q k v = some (b, q2)) : WF q2 := by
  unfold checkDec at hs
  by_cases hb : k < q.nv
  · rw [if_pos hb] at hs
    unfold cdCore at hs
    by_cases hlt : v < q.vals k
    · rw [if_pos hlt] at hs
      simp only [Option.some.injEq, Prod.mk.injEq] at hs
      obtain ⟨_, hq2⟩ := hs
      subst hq2
      exact WF_decrease hlt hwf
    · rw [if_neg hlt] at hs
      simp only [Option.some.injEq, Prod.mk.injEq] at hs
      obtain ⟨_, hq2⟩ := hs
      subst hq2
      exact hwf
  · rw [if_neg hb] at hs
    exact absurd hs (by simp)

theorem deleteMin_WF {q : PQ} (hwf : WF q) : WF (deleteMin q).2 := by
  match hroot : q.root with
  | none =>
    unfold deleteMin
    rw [hroot]
    exact hwf
  | some (.node j cs) =>
    unfold deleteMin
    rw [hroot]
    intro t2 ht2
    simp only at ht2
    obtain ⟨hnd, hok⟩ := hwf _ hroot
    rw [keysT_node] at hnd
    have hndcs : (keysF cs).Nodup := (List.nodup_cons.1 hnd).2
    have hokcs : ∀ c ∈ cs, heapOk q.vals c = true := by
      rw [heapOk_node, heapOkL_iff] at hok
      intro c hc
      exact (hok c hc).2
    obtain ⟨hok2, hperm2⟩ := mergePairs_spec hndcs hokcs ht2
    exact ⟨hperm2.nodup_iff.2 hndcs, hok2⟩

theorem entries_node {q : PQ} {j : Nat} {cs : List KTree}
    (h : q.root = some (KTree.node j cs)) :
    entries q = (j, q.vals j) :: (keysF cs).map (fun k => (k, q.vals k)) := by
  unfold entries
  rw [h]
  simp only [keysT_node, List.map_cons]

theorem popMin_spec {q : PQ} {t : KTree} (hwf : WF q) (h : q.root = some t) :
    (popMinQ q).1 = some (t.key, q.vals t.key) ∧
      WF (popMinQ q).2 ∧
      (entries q).Perm ((t.key, q.vals t.key) :: entries (popMinQ q).2) ∧
      (∀ e ∈ entries (popMinQ q).2, pairLt (t.key, q.vals t.key) e) := by
  have hpop2 : (popMinQ q).2 = (deleteMin q).2 := by unfold popMinQ; rw [h]
  have hpop1 : (popMinQ q).1 = some (t.key, q.vals t.key) := by unfold popMinQ; rw [h]
  match t with
  | .node j cs =>
    obtain ⟨hnd, hok⟩ := hwf _ h
    have hvals2 : (deleteMin q).2.vals = q.vals := by
      unfold deleteMin
      rw [h]
    have hroot2 : (deleteMin q).2.root = mergePairs q.vals cs := by
      unfold deleteMin
      rw [h]
    rw [keysT_node] at hnd
    have hndcs : (keysF cs).Nodup := (List.nodup_cons.1 hnd).2
    have hjnot : j ∉ keysF cs := (List.nodup_cons.1 hnd).1
    have hokcs : ∀ c ∈ cs, heapOk q.vals c = true := by
      rw [heapOk_node, heapOkL_iff] at hok
      intro c hc
      exact (hok c hc).2
    have hent2 : (entries (deleteMin q).2).Perm ((keysF cs).map (fun k => (k, q.vals k))) := by
      unfold entries
      match hmp : mergePairs q.vals cs with
      | none =>
        have hcs : cs = [] := mergePairs_eq_none.1 hmp
        subst hcs
        rw [hroot2, hmp, keysF_nil]
        exact List.Perm.refl _
      | some t2 =>
        rw [hroot2, hmp, hvals2]
        exact (mergePairs_spec hndcs hokcs hmp).2.map _
    refine ⟨hpop1, ?_, ?_, ?_⟩
    · rw [hpop2]
      exact deleteMin_WF hwf
    · rw [hpop2, key_node]
      calc (entries q).Perm ((j, q.vals j) :: (keysF cs).map (fun k => (k, q.vals k))) := by
            rw [entries_node h]
        _ |>.Perm ((j, q.vals j) :: entries (deleteMin q).2) := (hent2.symm).cons _
    · rw [hpop2, key_node]
      intro e he
      have he2 : e ∈ (keysF cs).map (fun k => (k, q.vals k)) := hent2.mem_iff.1 he
      obtain ⟨k2, hk2, rfl⟩ := List.mem_map.1 he2
      have hk2t : k2 ∈ keysT (KTree.node j cs) := by
        rw [keysT_node]
        exact List.mem_cons_of_mem _ hk2
      have hk2ne : k2 ≠ j := fun he3 => hjnot (he3 ▸ hk2)
      have hlt := heapOk_root_lt _ hok k2 hk2t (by rw [key_node]; exact hk2ne)
      rw [key_node] at hlt
      unfold nlt at hlt
      unfold pairLt
      simp only
      omega

/-- C3: code bug.  The claimed pop order — each live entry popped exactly
once, in strictly increasing lexicographic (value, key) order — is violated
by the benign run `reset(); set_value(0,5); set_value(0,3)`: `merge_roots`'
empty-`b` early-out leaves the first node inserted into an empty queue with
`prev == itself`, so the second `set_value` re-runs the insert branch and
`merge_roots_unchecked(n, n)` sets `n->desc = n`; `pop_min` then returns
`(0, 3)` twice before the queue empties — key 0 is popped twice, the popped
pair sequence is not strictly increasing, and it is not a permutation of the
single live entry.  A value-decreasing `check_decrease_value(0, 3)` reaches
the same state through `decrease`, whose CPPDEBUG assertion `a != root`
codifies that this state was never intended. -/
theorem claim_C3 :
    setV2 qc0 0 5 = some qc1 ∧ setV2 qc1 0 3 = some qc2 ∧
      entries2 qc2 = [(0, 3)] ∧
      popSeq2 3 qc2 = [(0, 3), (0, 3)] ∧
      empty2 (popMin2 qc2).2 = false ∧
      ¬ List.Pairwise pairLt (popSeq2 3 qc2) ∧
      ¬ (popSeq2 3 qc2).Perm (entries2 qc2) ∧
      (checkDec2 qc1 0 3).map (fun r => (r.1, (popSeq2 3 r.2))) =
        some (true, [(0, 3), (0, 3)]) := by
  refine ⟨rfl, rfl, by decide, by decide, by decide, by decide, ?_, by decide⟩
  intro hperm
  have h1 : popSeq2 3 qc2 = [(0, 3), (0, 3)] := by decide
  have h2 : entries2 qc2 = [(0, 3)] := by decide
  have hlen := hperm.length_eq
  rw [h1, h2] at hlen
  simp at hlen


/-- C4 (amended): `check_decrease_value(k, v)` with `v` not strictly below
the current value returns false and leaves the queue unchanged, and with `v`
strictly below it returns true, sets `k`'s value to `v` and changes no other
key's value — for `pairing_queue` always, and for `pairing_queue_fast_reset`
on live keys (logical values via `get_value`).  On a stale key (logical value
`max_P`) the fast queue instead always returns true and sets the value to `v`
— even when `v = max_P` is not a strict decrease — changing no other key's
logical value. -/
theorem claim_C4 (q : PQ) (f : FPQ) (k : Nat) (v w : Int)
    (hkq : k < q.nv) (hkf : k < f.nv) :
    (¬ v < q.vals k → checkDec q k v = some (false, q)) ∧
      (∀ b q2, checkDec q k v = some (b, q2) → v < q.vals k →
        b = true ∧ q2.vals k = v ∧ ∀ j, j ≠ k → q2.vals j = q.vals j) ∧
      (f.times k = f.now →
        (¬ w < getValF f k → checkDecF f k w = some (false, f)) ∧
          (∀ b f2, checkDecF f k w = some (b, f2) → w < getValF f k →
            b = true ∧ getValF f2 k = w ∧ ∀ j, j ≠ k → getValF f2 j = getValF f j)) ∧
      (f.times k ≠ f.now →
        ∀ b f2, checkDecF f k w = some (b, f2) →
          b = true ∧ getValF f2 k = w ∧ ∀ j, j ≠ k → getValF f2 j = getValF f j) := by
  refine ⟨?_, ?_, ?_, ?_⟩
  · intro hge
    unfold checkDec cdCore
    rw [if_pos hkq, if_neg hge]
  · intro b q2 hs hlt
    unfold checkDec cdCore at hs
    rw [if_pos hkq, if_pos hlt] at hs
    simp only [Option.some.injEq, Prod.mk.injEq] at hs
    obtain ⟨hb, hq2⟩ := hs
    subst hq2
    refine ⟨hb.symm, Function.update_same k v q.vals, ?_⟩
    intro j hj
    exact Function.update_noteq hj v q.vals
  · intro hlive
    have hgv : getValF f k = f.vals k := by unfold getValF; rw [if_pos hlive]
    constructor
    · intro hge
      rw [hgv] at hge
      unfold checkDecF cdCore
      rw [if_pos hkf, if_pos hlive, if_neg hge]
    · intro b f2 hs hlt
      rw [hgv] at hlt
      unfold checkDecF cdCore at hs
      rw [if_pos hkf, if_pos hlive, if_pos hlt] at hs
      simp only [Option.some.injEq, Prod.mk.injEq] at hs
      obtain ⟨hb, hf2⟩ := hs
      subst hf2
      refine ⟨hb.symm, ?_, ?_⟩
      · unfold getValF
        simp only [if_pos hlive]
        exact Function.update_same k w f.vals
      · intro j hj
        unfold getValF
        simp only
        rw [Function.update_noteq hj w f.vals]
  · intro hstale b f2 hs
    unfold checkDecF at hs
    rw [if_pos hkf, if_neg hstale] at hs
    simp only [Option.some.injEq, Prod.mk.injEq] at hs
    obtain ⟨hb, hf2⟩ := hs
    subst hf2
    refine ⟨hb.symm, ?_, ?_⟩
    · unfold getValF
      simp [Function.update_same]
    · intro j hj
      unfold getValF
      simp [Function.update_noteq hj]

/-- C4, claim as stated, is false for `pairing_queue_fast_reset`: after the
constructor and one `reset()` every key is stale with logical value `max_P`;
`check_decrease_value(0, max_P)` proposes a value that is not a strict
decrease, yet it returns true and changes the queue (the key is inserted, so
the queue stops being empty). -/
theorem claim_C4_counterexample :
    getValF (resetF (mkF 1)) 0 = maxP ∧
      ¬ (maxP < getValF (resetF (mkF 1)) 0) ∧
      (checkDecF (resetF (mkF 1)) 0 maxP).map (fun r => r.1) = some true ∧
      emptyF (resetF (mkF 1)) = true ∧
      (checkDecF (resetF (mkF 1)) 0 maxP).map (fun r => emptyF r.2) = some false := by
  refine ⟨by decide, by decide, by decide, by decide, by decide⟩

/-- C4 witness: the amended theorem applied at a concrete queue and key. -/
theorem claim_C4_witness :
    checkDec (resetP (mkP 1)) 0 maxP = some (false, resetP (mkP 1)) :=
  (claim_C4 (resetP (mkP 1)) (mkF 1) 0 maxP 0 (by decide) (by decide)).1 (by decide)

theorem freach_times_le {f : FPQ} (h : FReach f) : ∀ k, f.times k ≤ f.now := by
  induction h with
  | init n => intro k; exact Nat.le_refl 0
  | @rst f hr ih =>
    intro k
    unfold resetF
    simp only
    by_cases hz : f.now = 0
    · rw [if_pos hz]
      exact Nat.zero_le _
    · rw [if_neg hz]
      exact Nat.le_succ_of_le (ih k)
  | @setv f f2 k v hr hs ih =>
    intro j
    unfold setVF at hs
    by_cases hb : k < f.nv
    · rw [if_pos hb] at hs
      by_cases hlive : f.times k = f.now
      · rw [if_pos hlive] at hs
        match hr2 : svCore f.vals f.root k v with
        | some r =>
          rw [hr2] at hs
          simp only [Option.map_some', Option.some.injEq] at hs
          subst hs
          exact ih j
        | none => rw [hr2] at hs; simp at hs
      · rw [if_neg hlive] at hs
        simp only [Option.some.injEq] at hs
        subst hs
        simp only
        by_cases hj : j = k
        · subst hj
          rw [Function.update_same]
        · rw [Function.update_noteq hj]
          exact ih j
    · rw [if_neg hb] at hs
      exact absurd hs (by simp)
  | @chk f f2 k v b hr hs ih =>
    intro j
    unfold checkDecF at hs
    by_cases hb : k < f.nv
    · rw [if_pos hb] at hs
      by_cases hlive : f.times k = f.now
      · rw [if_pos hlive] at hs
        simp only [Option.some.injEq, Prod.mk.injEq] at hs
        obtain ⟨_, hf2⟩ := hs
        subst hf2
        exact ih j
      · rw [if_neg hlive] at hs
        simp only [Option.some.injEq, Prod.mk.injEq] at hs
        obtain ⟨_, hf2⟩ := hs
        subst hf2
        simp only
        by_cases hj : j = k
        · subst hj
          rw [Function.update_same]
        · rw [Function.update_noteq hj]
          exact ih j
    · rw [if_neg hb] at hs
      exact absurd hs (by simp)
  | @pop f hr ih =>
    intro j
    unfold popMinF deleteMinF
    match hroot : f.root with
    | none => exact ih j
    | some (.node j2 cs) => exact ih j
  | @del f hr ih =>
    intro j
    unfold deleteMinF
    match hroot : f.root with
    | none => exact ih j
    | some (.node j2 cs) => exact ih j

/-- C5: from any reachable `pairing_queue_fast_reset` state, one `reset()`
call leaves the queue empty (`empty()` true, `pop_min` false, `delete_min`
false) and makes `get_value(k)` report the maximum priority for every valid
key, because every stored generation stamp differs from the bumped counter. -/
theorem claim_C5 {f : FPQ} (h : FReach f) :
    emptyF (resetF f) = true ∧
      (popMinF (resetF f)).1 = none ∧
      (deleteMinF (resetF f)).1 = false ∧
      ∀ k, k < (resetF f).nv →
        getValF (resetF f) k = maxP ∧ (resetF f).times k ≠ (resetF f).now := by
  have hle := freach_times_le h
  have hroot : (resetF f).root = none := rfl
  have hstale : ∀ k, (resetF f).times k ≠ (resetF f).now := by
    intro k
    unfold resetF
    simp only
    by_cases hz : f.now = 0
    · rw [if_pos hz, hz]
      simp
    · rw [if_neg hz]
      have := hle k
      omega
  refine ⟨rfl, ?_, ?_, ?_⟩
  · unfold popMinF
    rw [hroot]
  · unfold deleteMinF
    rw [hroot]
  · intro k _
    refine ⟨?_, hstale k⟩
    unfold getValF
    rw [if_neg (hstale k)]

/-- C5 witness: the theorem applied to the constructor state of a 2-node
fast-reset queue. -/
theorem claim_C5_witness :
    emptyF (resetF (mkF 2)) = true ∧
      (popMinF (resetF (mkF 2))).1 = none ∧
      (deleteMinF (resetF (mkF 2))).1 = false ∧
      ∀ k, k < (resetF (mkF 2)).nv →
        getValF (resetF (mkF 2)) k = maxP ∧
          (resetF (mkF 2)).times k ≠ (resetF (mkF 2)).now :=
  claim_C5 (FReach.init 2)

theorem rootKeys_none : rootKeys none = [] := rfl

theorem rootKeys_some (t : KTree) : rootKeys (some t) = keysT t := rfl

theorem rootKeys_mergeInsert_subset {va : Nat → Int} {root : Option KTree} {k : Nat} :
    ∀ j, j ∈ keysT (mergeRoots va (KTree.node k []) root) → j = k ∨ j ∈ rootKeys root := by
  intro j hj
  match root with
  | none =>
    rw [mergeRoots, keysT_node, keysF_nil] at hj
    exact Or.inl (List.mem_singleton.1 hj)
  | some t =>
    rw [mergeRoots] at hj
    have := (keysT_mergeRootsU va (KTree.node k []) t).mem_iff.1 hj
    rcases List.mem_append.1 this with h1 | h1
    · rw [keysT_node, keysF_nil] at h1
      exact Or.inl (List.mem_singleton.1 h1)
    · exact Or.inr (by rw [rootKeys_some]; exact h1)


theorem mergePairs_keys {v : Nat → Int} {cs : List KTree} {t2 : KTree}
    (h : mergePairs v cs = some t2) : (keysT t2).Perm (keysF cs) := by
  unfold mergePairs at h
  match hrev : (pairPass v cs).reverse with
  | [] => rw [hrev] at h; simp at h
  | a :: rs =>
    rw [hrev] at h
    simp only [Option.some.injEq] at h
    subst h
    have hkeys : (keysF (a :: rs)).Perm (keysF cs) := by
      calc keysF (a :: rs) = keysF (pairPass v cs).reverse := by rw [hrev]
        _ |>.Perm (keysF (pairPass v cs)) := keysF_reverse _
        _ |>.Perm (keysF cs) := keysF_pairPass v cs
    rw [keysF_cons] at hkeys
    exact (foldl_mergeU_keys v rs a).trans hkeys

theorem insMerge_congr {va vb : Nat → Int} {root : Option KTree} {mode : QMode}
    {k : Nat} (h : ∀ j, j ∈ rootKeys root → va j = vb j) (hk : va k = vb k) :
    insMerge va root mode k = insMerge vb root mode k := by
  match root with
  | none => rfl
  | some t =>
    simp only [insMerge]
    by_cases hc : mode = QMode.cyc
    · rw [if_pos hc, if_pos hc]
    · rw [if_neg hc, if_neg hc]
      by_cases hf : mode = QMode.fresh ∧ t.key = k
      · rw [if_pos hf, if_pos hf]
      · rw [if_neg hf, if_neg hf]
        rw [mergeRootsU_congr (by rw [key_node]; exact hk)
          (h t.key (by rw [rootKeys_some]; exact key_mem_keysT t))]

theorem rootKeys_insMerge_subset {va : Nat → Int} {root : Option KTree}
    {mode : QMode} {k : Nat} {r2 : Option KTree} {m2 : QMode}
    (h : insMerge va root mode k = some (r2, m2)) :
    ∀ j, j ∈ rootKeys r2 → j = k ∨ j ∈ rootKeys root := by
  intro j hj
  match root with
  | none =>
    simp only [insMerge, Option.some.injEq, Prod.mk.injEq] at h
    obtain ⟨hr, _⟩ := h
    rw [← hr, rootKeys_some, keysT_node, keysF_nil] at hj
    exact Or.inl (List.mem_singleton.1 hj)
  | some t =>
    simp only [insMerge] at h
    by_cases hc : mode = QMode.cyc
    · rw [if_pos hc] at h
      exact absurd h (by simp)
    · rw [if_neg hc] at h
      by_cases hf : mode = QMode.fresh ∧ t.key = k
      · rw [if_pos hf] at h
        simp only [Option.some.injEq, Prod.mk.injEq] at h
        obtain ⟨hr, _⟩ := h
        rw [← hr, rootKeys_some, keysT_node, keysF_nil] at hj
        exact Or.inl (List.mem_singleton.1 hj)
      · rw [if_neg hf] at h
        simp only [Option.some.injEq, Prod.mk.injEq] at h
        obtain ⟨hr, _⟩ := h
        rw [← hr, rootKeys_some] at hj
        exact rootKeys_mergeInsert_subset j hj

theorem dec2Core_congr {va vb : Nat → Int} {root : Option KTree} {mode : QMode}
    {k : Nat} (h : ∀ j, j ∈ rootKeys root → va j = vb j) (hk : va k = vb k) :
    dec2Core va root mode k = dec2Core vb root mode k := by
  simp only [dec2Core]
  by_cases hr : (rootIsB k root && !(decide (mode = QMode.fresh))) = true
  · rw [if_pos hr, if_pos hr]
  · rw [if_neg hr, if_neg hr]
    match root with
    | none => rfl
    | some t =>
      simp only
      by_cases hc : mode = QMode.cyc
      · rw [if_pos hc, if_pos hc]
      · rw [if_neg hc, if_neg hc]
        by_cases hf : mode = QMode.fresh ∧ t.key = k
        · rw [if_pos hf, if_pos hf]
        · rw [if_neg hf, if_neg hf]
          cases hrem : removeK k t with
          | some p =>
            obtain ⟨sub, rem⟩ := p
            obtain ⟨hsk, hrk, _⟩ := removeK_spec t sub rem hrem
            show some (some (mergeRootsU va sub rem), QMode.clean) =
              some (some (mergeRootsU vb sub rem), QMode.clean)
            rw [@mergeRootsU_congr va vb sub rem (by rw [hsk]; exact hk)
              (by rw [hrk]; exact h t.key (by rw [rootKeys_some]; exact key_mem_keysT t))]
          | none =>
            show some (some (mergeRootsU va (KTree.node k []) t), QMode.clean) =
              some (some (mergeRootsU vb (KTree.node k []) t), QMode.clean)
            rw [@mergeRootsU_congr va vb (KTree.node k []) t (by rw [key_node]; exact hk)
              (h t.key (by rw [rootKeys_some]; exact key_mem_keysT t))]

theorem dec2Core_not_mem {va : Nat → Int} {root : Option KTree} {mode : QMode}
    {k : Nat} (hk : k ∉ rootKeys root) :
    dec2Core va root mode k = insMerge va root mode k := by
  have hri : rootIsB k root = false := by
    match root with
    | none => rfl
    | some t =>
      rw [rootKeys_some] at hk
      simp only [rootIsB, beq_eq_false_iff_ne, ne_eq]
      intro he
      exact hk (he ▸ key_mem_keysT t)
  simp only [dec2Core, hri, Bool.false_and]
  rw [if_neg Bool.false_ne_true]
  match root with
  | none => rfl
  | some t =>
    simp only [insMerge]
    by_cases hc : mode = QMode.cyc
    · rw [if_pos hc, if_pos hc]
    · rw [if_neg hc, if_neg hc]
      by_cases hf : mode = QMode.fresh ∧ t.key = k
      · rw [if_pos hf, if_pos hf]
      · rw [if_neg hf, if_neg hf]
        rw [removeK_none_of_not_mem (by rw [rootKeys_some] at hk; exact hk)]

theorem rootKeys_dec2Core_subset {va : Nat → Int} {root : Option KTree}
    {mode : QMode} {k : Nat} {r2 : Option KTree} {m2 : QMode}
    (h : dec2Core va root mode k = some (r2, m2)) :
    ∀ j, j ∈ rootKeys r2 → j = k ∨ j ∈ rootKeys root := by
  intro j hj
  simp only [dec2Core] at h
  by_cases hr : (rootIsB k root && !(decide (mode = QMode.fresh))) = true
  · rw [if_pos hr] at h
    simp only [Option.some.injEq, Prod.mk.injEq] at h
    obtain ⟨hr2, _⟩ := h
    exact Or.inr (hr2 ▸ hj)
  · rw [if_neg hr] at h
    match root with
    | none =>
      simp only [Option.some.injEq, Prod.mk.injEq] at h
      obtain ⟨hr2, _⟩ := h
      rw [← hr2, rootKeys_some, keysT_node, keysF_nil] at hj
      exact Or.inl (List.mem_singleton.1 hj)
    | some t =>
      simp only at h
      by_cases hc : mode = QMode.cyc
      · rw [if_pos hc] at h
        exact absurd h (by simp)
      · rw [if_neg hc] at h
        by_cases hf : mode = QMode.fresh ∧ t.key = k
        · rw [if_pos hf] at h
          simp only [Option.some.injEq, Prod.mk.injEq] at h
          obtain ⟨hr2, _⟩ := h
          rw [← hr2, rootKeys_some, keysT_node, keysF_nil] at hj
          exact Or.inl (List.mem_singleton.1 hj)
        · rw [if_neg hf] at h
          match hrem : removeK k t with
          | some (sub, rem) =>
            rw [hrem] at h
            simp only [Option.some.injEq, Prod.mk.injEq] at h
            obtain ⟨hr2, _⟩ := h
            obtain ⟨hsk, hrk, hperm⟩ := removeK_spec t sub rem hrem
            rw [← hr2, rootKeys_some] at hj
            have hj2 := (keysT_mergeRootsU va sub rem).mem_iff.1 hj
            exact Or.inr (by
              rw [rootKeys_some]
              exact hperm.mem_iff.2 hj2)
          | none =>
            rw [hrem] at h
            simp only [Option.some.injEq, Prod.mk.injEq] at h
            obtain ⟨hr2, _⟩ := h
            rw [← hr2, rootKeys_some] at hj
            exact rootKeys_mergeInsert_subset j hj

theorem Rrel2_agree {p : PQ2} {f : FPQ2} (hR : Rrel2 p f) :
    ∀ j, j ∈ rootKeys f.root → p.vals j = f.vals j := by
  obtain ⟨hn, hrt, hm, hlv, hst, htr⟩ := hR
  intro j hj
  match hroot : f.root with
  | none => rw [hroot, rootKeys_none] at hj; simp at hj
  | some t =>
    rw [hroot, rootKeys_some] at hj
    obtain ⟨hb, hl⟩ := htr t hroot j hj
    exact hlv j hb hl

theorem Rrel2_rebuild_update {p : PQ2} {f : FPQ2} (hR : Rrel2 p f) {k : Nat}
    {v : Int} {r2 : Option KTree} {m2 : QMode} (hk : k < f.nv)
    (hlive : f.times k = f.now)
    (hsub : ∀ j, j ∈ rootKeys r2 → j = k ∨ j ∈ rootKeys f.root) :
    Rrel2 { p with vals := Function.update p.vals k v, root := r2, mode := m2 }
          { f with vals := Function.update f.vals k v, root := r2, mode := m2 } := by
  obtain ⟨hn, hrt, hm, hlv, hst, htr⟩ := hR
  refine ⟨hn, rfl, rfl, ?_, ?_, ?_⟩
  · intro j hb hl
    simp only at hb hl ⊢
    by_cases hj : j = k
    · subst hj
      rw [Function.update_same, Function.update_same]
    · rw [Function.update_noteq hj, Function.update_noteq hj]
      exact hlv j hb hl
  · intro j hb hsl
    simp only at hb hsl ⊢
    have hj : j ≠ k := fun he => hsl (he ▸ hlive)
    rw [Function.update_noteq hj]
    exact hst j hb hsl
  · intro t ht j hj
    simp only at ht ⊢
    rcases hsub j (by rw [ht] at hsub ⊢; rw [rootKeys_some]; exact hj) with rfl | hold
    · exact ⟨hk, hlive⟩
    · match hroot : f.root with
      | none => rw [hroot, rootKeys_none] at hold; simp at hold
      | some t0 =>
        rw [hroot, rootKeys_some] at hold
        exact htr t0 hroot j hold

theorem Rrel2_stale_insert {p : PQ2} {f : FPQ2} (hR : Rrel2 p f) {k : Nat}
    {v : Int} {r2 : Option KTree} {m2 : QMode} (hk : k < f.nv)
    (hstale : f.times k ≠ f.now)
    (hsub : ∀ j, j ∈ rootKeys r2 → j = k ∨ j ∈ rootKeys f.root) :
    Rrel2 { p with vals := Function.update p.vals k v, root := r2, mode := m2 }
          { f with vals := Function.update f.vals k v,
                   times := Function.update f.times k f.now,
                   root := r2, mode := m2 } := by
  obtain ⟨hn, hrt, hm, hlv, hst, htr⟩ := hR
  refine ⟨hn, rfl, rfl, ?_, ?_, ?_⟩
  · intro j hb hl
    simp only at hb hl ⊢
    by_cases hj : j = k
    · subst hj
      rw [Function.update_same, Function.update_same]
    · rw [Function.update_noteq hj] at hl
      rw [Function.update_noteq hj, Function.update_noteq hj]
      exact hlv j hb hl
  · intro j hb hsl
    simp only at hb hsl ⊢
    by_cases hj : j = k
    · subst hj
      rw [Function.update_same] at hsl
      exact absurd rfl hsl
    · rw [Function.update_noteq hj] at hsl
      rw [Function.update_noteq hj]
      exact hst j hb hsl
  · intro t ht j hj
    simp only at ht ⊢
    rcases hsub j (by rw [ht] at hsub ⊢; rw [rootKeys_some]; exact hj) with rfl | hold
    · exact ⟨hk, Function.update_same j f.now f.times⟩
    · match hroot : f.root with
      | none => rw [hroot, rootKeys_none] at hold; simp at hold
      | some t0 =>
        rw [hroot, rootKeys_some] at hold
        obtain ⟨hb0, hl0⟩ := htr t0 hroot j hold
        refine ⟨hb0, ?_⟩
        by_cases hj : j = k
        · subst hj
          exact Function.update_same j f.now f.times
        · rw [Function.update_noteq hj]
          exact hl0

theorem setVal2_bisim {p : PQ2} {f : FPQ2} (hR : Rrel2 p f) (k : Nat) (v : Int) :
    stepAgree2 (stepP2 (QInstr.setVal k v) p) (stepF2 (QInstr.setVal k v) f) := by
  obtain ⟨hn, hrt, hm, hlv, hst, htr⟩ := hR
  have hR2 : Rrel2 p f := ⟨hn, hrt, hm, hlv, hst, htr⟩
  have hagree : ∀ j, j ∈ rootKeys f.root → p.vals j = f.vals j := Rrel2_agree hR2
  have hupd : ∀ j, j ∈ rootKeys f.root →
      Function.update p.vals k v j = Function.update f.vals k v j := by
    intro j hj
    by_cases hjk : j = k
    · subst hjk
      rw [Function.update_same, Function.update_same]
    · rw [Function.update_noteq hjk, Function.update_noteq hjk]
      exact hagree j hj
  have hupk : Function.update p.vals k v k = Function.update f.vals k v k := by
    rw [Function.update_same, Function.update_same]
  simp only [stepP2, stepF2, setV2, setVF2]
  by_cases hb : k < f.nv
  · have hbp : k < p.nv := by rw [hn]; exact hb
    rw [if_pos hbp, if_pos hb, hrt, hm]
    by_cases hlive : f.times k = f.now
    · rw [if_pos hlive]
      have hk : p.vals k = f.vals k := hlv k hb hlive
      simp only [sv2Core]
      by_cases hdisp :
          (!(inTreeB k f.root) || (decide (f.mode = QMode.fresh) && rootIsB k f.root)) = true
      · rw [if_pos hdisp, if_pos hdisp]
        rw [insMerge_congr hupd hupk]
        cases hins2 : insMerge (Function.update f.vals k v) f.root f.mode k with
        | none =>
          simp only [Option.map_none']
          unfold stepAgree2
          trivial
        | some r =>
          obtain ⟨r2, m2⟩ := r
          simp only [Option.map_some']
          refine ⟨rfl, ?_⟩
          exact Rrel2_rebuild_update hR2 hb hlive
            (fun j hj => rootKeys_insMerge_subset hins2 j hj)
      · rw [if_neg hdisp, if_neg hdisp]
        by_cases hdec : v < f.vals k
        · have hdecp : v < p.vals k := by rw [hk]; exact hdec
          rw [if_pos hdecp, if_pos hdec]
          rw [dec2Core_congr hupd hupk]
          cases hdc2 : dec2Core (Function.update f.vals k v) f.root f.mode k with
          | none =>
            simp only [Option.map_none']
            unfold stepAgree2
            trivial
          | some r =>
            obtain ⟨r2, m2⟩ := r
            simp only [Option.map_some']
            refine ⟨rfl, ?_⟩
            exact Rrel2_rebuild_update hR2 hb hlive
              (fun j hj => rootKeys_dec2Core_subset hdc2 j hj)
        · have hdecp : ¬ v < p.vals k := by rw [hk]; exact hdec
          rw [if_neg hdecp, if_neg hdec]
          by_cases hinc : f.vals k < v
          · have hincp : p.vals k < v := by rw [hk]; exact hinc
            rw [if_pos hincp, if_pos hinc]
            match hroot : f.root with
            | none =>
              unfold stepAgree2
              trivial
            | some t =>
              simp only
              by_cases htk : t.key = k
              · rw [if_pos htk, if_pos htk]
                unfold stepAgree2
                trivial
              · rw [if_neg htk, if_neg htk]
                cases hrem : removeK k t with
                | none =>
                  simp only [Option.map_none']
                  unfold stepAgree2
                  trivial
                | some pr =>
                  obtain ⟨sub, rem⟩ := pr
                  obtain ⟨hsk, hrk, hperm⟩ := removeK_spec t sub rem hrem
                  simp only [Option.map_some']
                  refine ⟨rfl, ?_⟩
                  have hroots : mergeRootsU (Function.update p.vals k v) sub rem =
                      mergeRootsU (Function.update f.vals k v) sub rem := by
                    apply @mergeRootsU_congr _ _ sub rem
                    · rw [hsk]; exact hupk
                    · rw [hrk]
                      exact hupd t.key (by
                        rw [hroot, rootKeys_some]
                        exact key_mem_keysT t)
                  rw [hroots]
                  apply Rrel2_rebuild_update hR2 hb hlive
                  intro j hj
                  rw [rootKeys_some] at hj
                  have := (keysT_mergeRootsU (Function.update f.vals k v) sub rem).mem_iff.1 hj
                  exact Or.inr (by
                    rw [hroot, rootKeys_some]
                    exact hperm.mem_iff.2 this)
          · have hincp : ¬ p.vals k < v := by rw [hk]; exact hinc
            rw [if_neg hincp, if_neg hinc]
            simp only [Option.map_some']
            exact ⟨rfl, hn, rfl, rfl, hlv, hst, htr⟩
    · rw [if_neg hlive]
      have hout : inTreeB k f.root = false := by
        by_cases hin : inTreeB k f.root = true
        · exfalso
          have hmem := inTreeB_iff.1 hin
          match hroot : f.root with
          | none => rw [hroot, rootKeys_none] at hmem; simp at hmem
          | some t =>
            rw [hroot, rootKeys_some] at hmem
            exact hlive (htr t hroot k hmem).2
        · exact Bool.not_eq_true _ ▸ hin
      simp only [sv2Core]
      rw [if_pos (by rw [hout]; rfl)]
      rw [insMerge_congr hupd hupk]
      cases hins2 : insMerge (Function.update f.vals k v) f.root f.mode k with
      | none =>
        simp only [Option.map_none']
        unfold stepAgree2
        trivial
      | some r =>
        obtain ⟨r2, m2⟩ := r
        simp only [Option.map_some']
        refine ⟨rfl, ?_⟩
        exact Rrel2_stale_insert hR2 hb hlive
          (fun j hj => rootKeys_insMerge_subset hins2 j hj)
  · have hbp : ¬ k < p.nv := by rw [hn]; exact hb
    rw [if_neg hbp, if_neg hb]
    simp only [Option.map_none']
    unfold stepAgree2
    trivial

theorem chkDec2_bisim {p : PQ2} {f : FPQ2} (hR : Rrel2 p f) (k : Nat) (v : Int)
    (hv : v < maxP) :
    stepAgree2 (stepP2 (QInstr.chkDec k v) p) (stepF2 (QInstr.chkDec k v) f) := by
  obtain ⟨hn, hrt, hm, hlv, hst, htr⟩ := hR
  have hR2 : Rrel2 p f := ⟨hn, hrt, hm, hlv, hst, htr⟩
  have hagree : ∀ j, j ∈ rootKeys f.root → p.vals j = f.vals j := Rrel2_agree hR2
  have hupd : ∀ j, j ∈ rootKeys f.root →
      Function.update p.vals k v j = Function.update f.vals k v j := by
    intro j hj
    by_cases hjk : j = k
    · subst hjk
      rw [Function.update_same, Function.update_same]
    · rw [Function.update_noteq hjk, Function.update_noteq hjk]
      exact hagree j hj
  have hupk : Function.update p.vals k v k = Function.update f.vals k v k := by
    rw [Function.update_same, Function.update_same]
  simp only [stepP2, stepF2, checkDec2, checkDecF2]
  by_cases hb : k < f.nv
  · have hbp : k < p.nv := by rw [hn]; exact hb
    rw [if_pos hbp, if_pos hb, hrt, hm]
    by_cases hlive : f.times k = f.now
    · rw [if_pos hlive]
      have hk : p.vals k = f.vals k := hlv k hb hlive
      simp only [cd2Core]
      by_cases hdec : v < f.vals k
      · have hdecp : v < p.vals k := by rw [hk]; exact hdec
        rw [if_pos hdecp, if_pos hdec]
        rw [dec2Core_congr hupd hupk]
        cases hdc2 : dec2Core (Function.update f.vals k v) f.root f.mode k with
        | none =>
          simp only [Option.map_none']
          unfold stepAgree2
          trivial
        | some r =>
          obtain ⟨r2, m2⟩ := r
          simp only [Option.map_some']
          refine ⟨rfl, ?_⟩
          exact Rrel2_rebuild_update hR2 hb hlive
            (fun j hj => rootKeys_dec2Core_subset hdc2 j hj)
      · have hdecp : ¬ v < p.vals k := by rw [hk]; exact hdec
        rw [if_neg hdecp, if_neg hdec]
        simp only [Option.map_some']
        exact ⟨rfl, hn, rfl, rfl, hlv, hst, htr⟩
    · rw [if_neg hlive]
      have hmax : p.vals k = maxP := hst k hb hlive
      have hdecp : v < p.vals k := by rw [hmax]; exact hv
      have hout : k ∉ rootKeys f.root := by
        intro hmem
        match hroot : f.root with
        | none => rw [hroot, rootKeys_none] at hmem; simp at hmem
        | some t =>
          rw [hroot, rootKeys_some] at hmem
          exact hlive (htr t hroot k hmem).2
      simp only [cd2Core]
      rw [if_pos hdecp]
      rw [dec2Core_not_mem hout, insMerge_congr hupd hupk]
      cases hins2 : insMerge (Function.update f.vals k v) f.root f.mode k with
      | none =>
        simp only [Option.map_none']
        unfold stepAgree2
        trivial
      | some r =>
        obtain ⟨r2, m2⟩ := r
        simp only [Option.map_some']
        refine ⟨rfl, ?_⟩
        exact Rrel2_stale_insert hR2 hb hlive
          (fun j hj => rootKeys_insMerge_subset hins2 j hj)
  · have hbp : ¬ k < p.nv := by rw [hn]; exact hb
    rw [if_neg hbp, if_neg hb]
    unfold stepAgree2
    trivial

theorem popLike2_roots {p : PQ2} {f : FPQ2} (hR : Rrel2 p f) {j2 : Nat}
    {cs : List KTree} (hroot : f.root = some (KTree.node j2 cs)) :
    mergePairs p.vals cs = mergePairs f.vals cs ∧
      Rrel2 { p with root := mergePairs p.vals cs, mode := QMode.clean }
            { f with root := mergePairs f.vals cs, mode := QMode.clean } := by
  obtain ⟨hn, hrt, hm, hlv, hst, htr⟩ := hR
  have hR2 : Rrel2 p f := ⟨hn, hrt, hm, hlv, hst, htr⟩
  have hagree : ∀ j, j ∈ rootKeys f.root → p.vals j = f.vals j := Rrel2_agree hR2
  have hcs : ∀ j, j ∈ keysF cs → j ∈ keysT (KTree.node j2 cs) := by
    intro j hj
    rw [keysT_node]
    exact List.mem_cons_of_mem _ hj
  have hmp : mergePairs p.vals cs = mergePairs f.vals cs :=
    mergePairs_congr (fun j hj => hagree j (by
      rw [hroot, rootKeys_some]
      exact hcs j hj))
  refine ⟨hmp, hn, by simp only; rw [hmp], rfl, hlv, hst, ?_⟩
  intro t2 ht2 j hj
  simp only at ht2
  have hperm := mergePairs_keys ht2
  exact htr _ hroot j (hcs j (hperm.mem_iff.1 hj))

theorem cyc2_pop_rel {p : PQ2} {f : FPQ2} (hR : Rrel2 p f) {j2 : Nat}
    {cs : List KTree} (hroot : f.root = some (KTree.node j2 cs)) :
    Rrel2 { p with root := some (KTree.node j2 []), mode := QMode.fresh }
          { f with root := some (KTree.node j2 []), mode := QMode.fresh } := by
  obtain ⟨hn, hrt, hm, hlv, hst, htr⟩ := hR
  refine ⟨hn, rfl, rfl, hlv, hst, ?_⟩
  intro t ht j hj
  simp only at ht
  simp only [Option.some.injEq] at ht
  rw [← ht, keysT_node, keysF_nil] at hj
  rcases List.mem_singleton.1 hj with rfl
  exact htr _ hroot j (by rw [keysT_node]; exact List.mem_cons_self _ _)

theorem deleteMin2_eq_none {q : PQ2} (h : q.root = none) :
    deleteMin2 q = (false, q) := by
  unfold deleteMin2
  rw [h]

theorem deleteMin2_eq_cyc {q : PQ2} {j2 : Nat} {cs : List KTree}
    (h : q.root = some (KTree.node j2 cs)) (hc : q.mode = QMode.cyc) :
    deleteMin2 q =
      (true, { q with root := some (KTree.node j2 []), mode := QMode.fresh }) := by
  unfold deleteMin2
  rw [h]
  show (if q.mode = QMode.cyc
      then (true, { q with root := some (KTree.node j2 []), mode := QMode.fresh })
      else (true, { q with root := mergePairs q.vals cs, mode := QMode.clean })) = _
  rw [if_pos hc]

theorem deleteMin2_eq_cln {q : PQ2} {j2 : Nat} {cs : List KTree}
    (h : q.root = some (KTree.node j2 cs)) (hc : ¬ q.mode = QMode.cyc) :
    deleteMin2 q =
      (true, { q with root := mergePairs q.vals cs, mode := QMode.clean }) := by
  unfold deleteMin2
  rw [h]
  show (if q.mode = QMode.cyc
      then (true, { q with root := some (KTree.node j2 []), mode := QMode.fresh })
      else (true, { q with root := mergePairs q.vals cs, mode := QMode.clean })) = _
  rw [if_neg hc]

theorem deleteMinF2_eq_none {f : FPQ2} (h : f.root = none) :
    deleteMinF2 f = (false, f) := by
  unfold deleteMinF2
  rw [h]

theorem deleteMinF2_eq_cyc {f : FPQ2} {j2 : Nat} {cs : List KTree}
    (h : f.root = some (KTree.node j2 cs)) (hc : f.mode = QMode.cyc) :
    deleteMinF2 f =
      (true, { f with root := some (KTree.node j2 []), mode := QMode.fresh }) := by
  unfold deleteMinF2
  rw [h]
  show (if f.mode = QMode.cyc
      then (true, { f with root := some (KTree.node j2 []), mode := QMode.fresh })
      else (true, { f with root := mergePairs f.vals cs, mode := QMode.clean })) = _
  rw [if_pos hc]

theorem deleteMinF2_eq_cln {f : FPQ2} {j2 : Nat} {cs : List KTree}
    (h : f.root = some (KTree.node j2 cs)) (hc : ¬ f.mode = QMode.cyc) :
    deleteMinF2 f =
      (true, { f with root := mergePairs f.vals cs, mode := QMode.clean }) := by
  unfold deleteMinF2
  rw [h]
  show (if f.mode = QMode.cyc
      then (true, { f with root := some (KTree.node j2 []), mode := QMode.fresh })
      else (true, { f with root := mergePairs f.vals cs, mode := QMode.clean })) = _
  rw [if_neg hc]

theorem popMin2_eq_some {q : PQ2} {j2 : Nat} {cs : List KTree}
    (h : q.root = some (KTree.node j2 cs)) :
    popMin2 q = (some (j2, q.vals j2), (deleteMin2 q).2) := by
  unfold popMin2
  rw [h]
  rfl

theorem popMinF2_eq_some {f : FPQ2} {j2 : Nat} {cs : List KTree}
    (h : f.root = some (KTree.node j2 cs)) :
    popMinF2 f = (some (j2, f.vals j2), (deleteMinF2 f).2) := by
  unfold popMinF2
  rw [h]
  rfl

theorem popMn2_bisim {p : PQ2} {f : FPQ2} (hR : Rrel2 p f) :
    stepAgree2 (stepP2 QInstr.popMn p) (stepF2 QInstr.popMn f) := by
  have hrt := hR.2.1
  have hm := hR.2.2.1
  cases hroot : f.root with
  | none =>
    have hrootp : p.root = none := by rw [hrt, hroot]
    have h1 : popMin2 p = (none, p) := by unfold popMin2; rw [hrootp]
    have h2 : popMinF2 f = (none, f) := by unfold popMinF2; rw [hroot]
    simp only [stepP2, stepF2, h1, h2]
    exact ⟨rfl, hR⟩
  | some t =>
    obtain ⟨j2, cs⟩ := t
    have hrootp : p.root = some (KTree.node j2 cs) := by rw [hrt, hroot]
    have hv : p.vals j2 = f.vals j2 := Rrel2_agree hR j2 (by
      rw [hroot, rootKeys_some, keysT_node]
      exact List.mem_cons_self _ _)
    by_cases hcyc : f.mode = QMode.cyc
    · have hcycp : p.mode = QMode.cyc := by rw [hm, hcyc]
      simp only [stepP2, stepF2, popMin2_eq_some hrootp, popMinF2_eq_some hroot,
        deleteMin2_eq_cyc hrootp hcycp, deleteMinF2_eq_cyc hroot hcyc]
      exact ⟨by rw [hv], cyc2_pop_rel hR hroot⟩
    · have hcycp : ¬ p.mode = QMode.cyc := by rw [hm]; exact hcyc
      obtain ⟨hmp, hR3⟩ := popLike2_roots hR hroot
      simp only [stepP2, stepF2, popMin2_eq_some hrootp, popMinF2_eq_some hroot,
        deleteMin2_eq_cln hrootp hcycp, deleteMinF2_eq_cln hroot hcyc]
      refine ⟨by rw [hv], ?_⟩
      rw [hmp] at hR3 ⊢
      exact hR3

theorem delMn2_bisim {p : PQ2} {f : FPQ2} (hR : Rrel2 p f) :
    stepAgree2 (stepP2 QInstr.delMn p) (stepF2 QInstr.delMn f) := by
  have hrt := hR.2.1
  have hm := hR.2.2.1
  cases hroot : f.root with
  | none =>
    have hrootp : p.root = none := by rw [hrt, hroot]
    simp only [stepP2, stepF2, deleteMin2_eq_none hrootp, deleteMinF2_eq_none hroot]
    exact ⟨rfl, hR⟩
  | some t =>
    obtain ⟨j2, cs⟩ := t
    have hrootp : p.root = some (KTree.node j2 cs) := by rw [hrt, hroot]
    by_cases hcyc : f.mode = QMode.cyc
    · have hcycp : p.mode = QMode.cyc := by rw [hm, hcyc]
      simp only [stepP2, stepF2, deleteMin2_eq_cyc hrootp hcycp,
        deleteMinF2_eq_cyc hroot hcyc]
      exact ⟨rfl, cyc2_pop_rel hR hroot⟩
    · have hcycp : ¬ p.mode = QMode.cyc := by rw [hm]; exact hcyc
      obtain ⟨hmp, hR3⟩ := popLike2_roots hR hroot
      simp only [stepP2, stepF2, deleteMin2_eq_cln hrootp hcycp,
        deleteMinF2_eq_cln hroot hcyc]
      refine ⟨rfl, ?_⟩
      rw [hmp] at hR3 ⊢
      exact hR3

theorem minVl2_bisim {p : PQ2} {f : FPQ2} (hR : Rrel2 p f) :
    stepAgree2 (stepP2 QInstr.minVl p) (stepF2 QInstr.minVl f) := by
  have hrt := hR.2.1
  simp only [stepP2, stepF2, minValue2, minValueF2, hrt]
  match hroot : f.root with
  | none =>
    unfold stepAgree2
    trivial
  | some t =>
    have hv : p.vals t.key = f.vals t.key := Rrel2_agree hR t.key (by
      rw [hroot, rootKeys_some]
      exact key_mem_keysT t)
    simp only [Option.map_some']
    exact ⟨by rw [hv], hR⟩

theorem minKy2_bisim {p : PQ2} {f : FPQ2} (hR : Rrel2 p f) :
    stepAgree2 (stepP2 QInstr.minKy p) (stepF2 QInstr.minKy f) := by
  have hrt := hR.2.1
  simp only [stepP2, stepF2, minKey2, minKeyF2, hrt]
  match hroot : f.root with
  | none =>
    unfold stepAgree2
    trivial
  | some t =>
    simp only [Option.map_some']
    exact ⟨rfl, hR⟩

theorem isEmp2_bisim {p : PQ2} {f : FPQ2} (hR : Rrel2 p f) :
    stepAgree2 (stepP2 QInstr.isEmp p) (stepF2 QInstr.isEmp f) := by
  have hrt := hR.2.1
  simp only [stepP2, stepF2, empty2, emptyF2, hrt]
  exact ⟨rfl, hR⟩

theorem step2_bisim {p : PQ2} {f : FPQ2} (hR : Rrel2 p f) (i : QInstr)
    (hok : okIns i) : stepAgree2 (stepP2 i p) (stepF2 i f) := by
  match i with
  | .setVal k v => exact setVal2_bisim hR k v
  | .chkDec k v => exact chkDec2_bisim hR k v hok
  | .popMn => exact popMn2_bisim hR
  | .delMn => exact delMn2_bisim hR
  | .minVl => exact minVl2_bisim hR
  | .minKy => exact minKy2_bisim hR
  | .isEmp => exact isEmp2_bisim hR

theorem run2_bisim :
    ∀ (instrs : List QInstr) (p : PQ2) (f : FPQ2), Rrel2 p f →
      (∀ i ∈ instrs, okIns i) → runP2 instrs p = runF2 instrs f := by
  intro instrs
  induction instrs with
  | nil => intro p f _ _; rfl
  | cons i is ih =>
    intro p f hR hok
    have hstep := step2_bisim hR i (hok i (List.mem_cons_self _ _))
    rw [runP2, runF2]
    match hp : stepP2 i p, hf : stepF2 i f with
    | none, none => rfl
    | none, some r2 =>
      rw [hp, hf] at hstep
      exact absurd hstep (by unfold stepAgree2; simp)
    | some r1, none =>
      rw [hp, hf] at hstep
      exact absurd hstep (by unfold stepAgree2; simp)
    | some (o1, p2), some (o2, f2) =>
      rw [hp, hf] at hstep
      obtain ⟨ho, hR2⟩ := hstep
      simp only at ho
      rw [ho]
      show Option.map (fun os => o2 :: os) (runP2 is p2) =
        Option.map (fun os => o2 :: os) (runF2 is f2)
      rw [ih p2 f2 hR2 (fun i2 hi2 => hok i2 (List.mem_cons_of_mem _ hi2))]

theorem Rrel2_init (n : Nat) : Rrel2 (resetP2 (mkP2 n)) (resetF2 (mkF2 n)) := by
  refine ⟨rfl, rfl, rfl, ?_, ?_, ?_⟩
  · intro k _ hl
    exact absurd hl (by unfold resetF2 mkF2; simp)
  · intro k _ _
    rfl
  · intro t ht
    exact absurd ht (by unfold resetF2; simp)

/-- C6 (amended): starting from `reset()`, the plain `pairing_queue` and the
`pairing_queue_fast_reset` produce exactly the same observable results
(return flags, popped pairs, reported minima, crashes) under every sequence
of `set_value`, `check_decrease_value`, `pop_min`, `delete_min`, `min_value`,
`min_key` and `empty` operations, provided `check_decrease_value` is never
offered the maximum representable priority value — including through the
`prev == self` fresh-root and self-merged states, which both variants
traverse identically (both run the inherited `pairing_queue` code); a run is
tracked up to the first operation that inserts a further key into a
self-merged heap, where both models stop (`none`) together. -/
theorem claim_C6 (n : Nat) (instrs : List QInstr) (hok : ∀ i ∈ instrs, okIns i) :
    runP2 instrs (resetP2 (mkP2 n)) = runF2 instrs (resetF2 (mkF2 n)) :=
  run2_bisim instrs _ _ (Rrel2_init n) hok

/-- C6 as stated is false: after `reset()`, `check_decrease_value(0, max_P)`
returns false on the plain queue but true on the fast-reset queue (whose
stale node is unconditionally re-inserted), so the two variants are not
observationally equivalent on all operation sequences. -/
theorem claim_C6_counterexample :
    runP2 [QInstr.chkDec 0 maxP] (resetP2 (mkP2 1)) = some [QOut.flag false] ∧
      runF2 [QInstr.chkDec 0 maxP] (resetF2 (mkF2 1)) = some [QOut.flag true] ∧
      runP2 [QInstr.chkDec 0 maxP] (resetP2 (mkP2 1)) ≠
        runF2 [QInstr.chkDec 0 maxP] (resetF2 (mkF2 1)) :=
  ⟨by decide, by decide, by decide⟩

/-- C6 witness: a concrete sequence that walks through the `prev == self`
corner (fresh root, self-merge, double pop) and ordinary operations. -/
theorem claim_C6_witness :
    runP2 [QInstr.setVal 0 5, QInstr.setVal 0 3, QInstr.popMn, QInstr.popMn,
      QInstr.isEmp, QInstr.chkDec 0 2, QInstr.setVal 1 7, QInstr.minVl,
      QInstr.minKy, QInstr.popMn, QInstr.delMn, QInstr.isEmp]
      (resetP2 (mkP2 2)) =
    runF2 [QInstr.setVal 0 5, QInstr.setVal 0 3, QInstr.popMn, QInstr.popMn,
      QInstr.isEmp, QInstr.chkDec 0 2, QInstr.setVal 1 7, QInstr.minVl,
      QInstr.minKy, QInstr.popMn, QInstr.delMn, QInstr.isEmp]
      (resetF2 (mkF2 2)) :=
  claim_C6 2 _ (by decide)


theorem dGet_eq_of_mem {d : List (Int × Int)} {k c : Int} {dflt : Int}
    (hnd : (d.map Prod.fst).Nodup) (hmem : (k, c) ∈ d) : dGet d k dflt = c := by
  unfold dGet
  induction d with
  | nil => simp at hmem
  | cons p d ih =>
    rw [List.map_cons] at hnd
    rcases List.mem_cons.1 hmem with rfl | hmem
    · rw [List.find?_cons_of_pos _ (by simp)]
    · have hpk : p.1 ≠ k := by
        intro he
        exact (List.nodup_cons.1 hnd).1 (he ▸ List.mem_map.2 ⟨(k, c), hmem, rfl⟩)
      rw [List.find?_cons_of_neg _ (by simpa using hpk)]
      exact ih (List.nodup_cons.1 hnd).2 hmem

theorem dGet_eq_dflt {d : List (Int × Int)} {k : Int} {dflt : Int}
    (hmem : k ∉ d.map Prod.fst) : dGet d k dflt = dflt := by
  unfold dGet
  have hfind : d.find? (fun p => decide (p.1 = k)) = none := by
    rw [List.find?_eq_none]
    intro p hp
    simp only [decide_eq_true_eq]
    intro he
    exact hmem (List.mem_map.2 ⟨p, hp, he⟩)
  rw [hfind]

theorem dSet_keys_mem {d : List (Int × Int)} {k v : Int}
    (hmem : k ∈ d.map Prod.fst) : (dSet d k v).map Prod.fst = d.map Prod.fst := by
  unfold dSet
  rw [if_pos (by
    rw [List.any_eq_true]
    obtain ⟨p, hp, he⟩ := List.mem_map.1 hmem
    exact ⟨p, hp, by simp [he]⟩)]
  rw [List.map_map]
  apply List.map_congr_left
  intro p _
  by_cases hp : p.1 = k
  · simp [hp]
  · simp [hp]

theorem dSet_keys_not_mem {d : List (Int × Int)} {k v : Int}
    (hmem : k ∉ d.map Prod.fst) :
    (dSet d k v).map Prod.fst = d.map Prod.fst ++ [k] := by
  unfold dSet
  rw [if_neg (by
    rw [List.any_eq_true]
    rintro ⟨p, hp, he⟩
    simp only [decide_eq_true_eq] at he
    exact hmem (List.mem_map.2 ⟨p, hp, he⟩))]
  simp

theorem dSet_eq_map_of_mem {d : List (Int × Int)} {k v : Int}
    (hmem : k ∈ d.map Prod.fst) :
    dSet d k v = d.map (fun p => if p.1 = k then (k, v) else p) := by
  unfold dSet
  rw [if_pos (by
    rw [List.any_eq_true]
    obtain ⟨p, hp, he⟩ := List.mem_map.1 hmem
    exact ⟨p, hp, by simp [he]⟩)]

theorem dSet_eq_append_of_not_mem {d : List (Int × Int)} {k v : Int}
    (hmem : k ∉ d.map Prod.fst) : dSet d k v = d ++ [(k, v)] := by
  unfold dSet
  rw [if_neg (by
    rw [List.any_eq_true]
    rintro ⟨p, hp, he⟩
    simp only [decide_eq_true_eq] at he
    exact hmem (List.mem_map.2 ⟨p, hp, he⟩))]

theorem mem_dSet_iff {d : List (Int × Int)} {k v a b : Int}
    (hnd : (d.map Prod.fst).Nodup) :
    (a, b) ∈ dSet d k v ↔ ((a = k ∧ b = v) ∨ ((a, b) ∈ d ∧ a ≠ k)) := by
  by_cases hmem : k ∈ d.map Prod.fst
  · rw [dSet_eq_map_of_mem hmem]
    constructor
    · intro h
      obtain ⟨p, hp, he⟩ := List.mem_map.1 h
      by_cases hpk : p.1 = k
      · rw [if_pos hpk] at he
        cases he
        exact Or.inl ⟨rfl, rfl⟩
      · rw [if_neg hpk] at he
        subst he
        exact Or.inr ⟨hp, hpk⟩
    · intro h
      rcases h with ⟨rfl, rfl⟩ | ⟨hab, hak⟩
      · obtain ⟨p, hp, he⟩ := List.mem_map.1 hmem
        exact List.mem_map.2 ⟨p, hp, by rw [if_pos he]⟩
      · exact List.mem_map.2 ⟨(a, b), hab, by
          simp only
          rw [if_neg hak]⟩
  · rw [dSet_eq_append_of_not_mem hmem]
    constructor
    · intro h
      rcases List.mem_append.1 h with h | h
      · refine Or.inr ⟨h, ?_⟩
        intro he
        exact hmem (List.mem_map.2 ⟨(a, b), h, he⟩)
      · have he := List.mem_singleton.1 h
        injection he with h1 h2
        exact Or.inl ⟨h1, h2⟩
    · intro h
      rcases h with ⟨rfl, rfl⟩ | ⟨hab, _⟩
      · exact List.mem_append_right _ (List.mem_singleton.2 rfl)
      · exact List.mem_append_left _ hab

theorem mem_occOrder_aux {x : Int} :
    ∀ (l : List Int) (acc : List Int),
      x ∈ l.foldl (fun acc q => if q ∈ acc then acc else acc ++ [q]) acc ↔
        x ∈ acc ∨ x ∈ l := by
  intro l
  induction l with
  | nil => intro acc; simp
  | cons q l ih =>
    intro acc
    rw [List.foldl_cons, ih]
    by_cases hq : q ∈ acc
    · rw [if_pos hq]
      constructor
      · rintro (h | h)
        · exact Or.inl h
        · exact Or.inr (List.mem_cons_of_mem _ h)
      · rintro (h | h)
        · exact Or.inl h
        · rcases List.mem_cons.1 h with rfl | h
          · exact Or.inl hq
          · exact Or.inr h
    · rw [if_neg hq]
      constructor
      · rintro (h | h)
        · rcases List.mem_append.1 h with h | h
          · exact Or.inl h
          · exact Or.inr (by
              rcases List.mem_singleton.1 h with rfl
              exact List.mem_cons_self _ _)
        · exact Or.inr (List.mem_cons_of_mem _ h)
      · rintro (h | h)
        · exact Or.inl (List.mem_append_left _ h)
        · rcases List.mem_cons.1 h with rfl | h
          · exact Or.inl (List.mem_append_right _ (List.mem_singleton.2 rfl))
          · exact Or.inr h

theorem mem_occOrder {x : Int} {l : List Int} : x ∈ occOrder l ↔ x ∈ l := by
  unfold occOrder
  rw [mem_occOrder_aux l []]
  simp

theorem occOrder_nodup_aux :
    ∀ (l : List Int) (acc : List Int), acc.Nodup →
      (l.foldl (fun acc q => if q ∈ acc then acc else acc ++ [q]) acc).Nodup := by
  intro l
  induction l with
  | nil => intro acc h; exact h
  | cons q l ih =>
    intro acc hnd
    rw [List.foldl_cons]
    by_cases hq : q ∈ acc
    · rw [if_pos hq]
      exact ih acc hnd
    · rw [if_neg hq]
      apply ih
      rw [List.nodup_append]
      exact ⟨hnd, List.nodup_singleton q, fun a ha hb => by
        rcases List.mem_singleton.1 hb with rfl
        exact hq ha⟩

theorem occOrder_nodup (l : List Int) : (occOrder l).Nodup :=
  occOrder_nodup_aux l [] List.nodup_nil

theorem occOrder_append_one (l : List Int) (q : Int) :
    occOrder (l ++ [q]) = if q ∈ occOrder l then occOrder l else occOrder l ++ [q] := by
  unfold occOrder
  rw [List.foldl_append]
  rfl

theorem hist_fold_inv :
    ∀ (sizes pre : List Int) (h : List (Int × Int)),
      (h.map Prod.fst).Nodup →
      (∀ x : Int, x ∈ h.map Prod.fst ↔ x ≠ 0 ∧ x ∈ pre) →
      (∀ p ∈ h, p.2 = ((pre.count p.1 : Int))) →
      (((sizes.foldl (fun h s => if s = 0 then h else dSet h s (1 + dGet h s 0)) h).map
          Prod.fst).Nodup ∧
        (∀ x : Int,
          x ∈ (sizes.foldl (fun h s => if s = 0 then h else dSet h s (1 + dGet h s 0)) h).map
            Prod.fst ↔ x ≠ 0 ∧ x ∈ pre ++ sizes) ∧
        (∀ p ∈ sizes.foldl (fun h s => if s = 0 then h else dSet h s (1 + dGet h s 0)) h,
          p.2 = (((pre ++ sizes).count p.1 : Int)))) := by
  intro sizes
  induction sizes with
  | nil =>
    intro pre h hnd hmem hcnt
    simp only [List.foldl_nil, List.append_nil]
    exact ⟨hnd, hmem, hcnt⟩
  | cons s rest ih =>
    intro pre h hnd hmem hcnt
    rw [List.foldl_cons]
    have hassoc : pre ++ s :: rest = (pre ++ [s]) ++ rest := by simp
    rw [hassoc]
    by_cases hs0 : s = 0
    · rw [if_pos hs0]
      apply ih (pre ++ [s]) h hnd
      · intro x
        rw [hmem x]
        constructor
        · rintro ⟨hx0, hxp⟩
          exact ⟨hx0, List.mem_append_left _ hxp⟩
        · rintro ⟨hx0, hxp⟩
          refine ⟨hx0, ?_⟩
          rcases List.mem_append.1 hxp with hxp | hxp
          · exact hxp
          · rcases List.mem_singleton.1 hxp with rfl
            exact absurd hs0 hx0
      · intro p hp
        have hp0 : p.1 ≠ 0 := (hmem p.1).1 (List.mem_map.2 ⟨p, hp, rfl⟩) |>.1
        rw [List.count_append, hcnt p hp]
        have : List.count p.1 [s] = 0 := by
          rw [List.count_eq_zero]
          intro hm
          rcases List.mem_singleton.1 hm with rfl
          exact hp0 hs0
        omega
    · rw [if_neg hs0]
      by_cases hsk : s ∈ h.map Prod.fst
      · obtain ⟨p0, hp0, hp0k⟩ := List.mem_map.1 hsk
        have hp0e : p0 = (s, (pre.count s : Int)) := by
          have := hcnt p0 hp0
          rw [← hp0k, ← this]
        have hget : dGet h s 0 = (pre.count s : Int) :=
          dGet_eq_of_mem hnd (hp0e ▸ hp0)
        apply ih (pre ++ [s]) _ (by rw [dSet_keys_mem hsk]; exact hnd)
        · intro x
          rw [dSet_keys_mem hsk, hmem x]
          constructor
          · rintro ⟨hx0, hxp⟩
            exact ⟨hx0, List.mem_append_left _ hxp⟩
          · rintro ⟨hx0, hxp⟩
            refine ⟨hx0, ?_⟩
            rcases List.mem_append.1 hxp with hxp | hxp
            · exact hxp
            · rcases List.mem_singleton.1 hxp with rfl
              exact ((hmem _).1 hsk).2
        · intro p hp
          match p with
          | (a, b) =>
            rcases (mem_dSet_iff hnd).1 hp with ⟨rfl, rfl⟩ | ⟨hab, hane⟩
            · simp only
              rw [hget, List.count_append]
              have h1 : ∀ z : Int, List.count z [z] = 1 := by intro z; simp
              rw [h1]
              omega
            · simp only
              have := hcnt (a, b) hab
              simp only at this
              rw [List.count_append, this]
              have hz : List.count a [s] = 0 := by
                rw [List.count_eq_zero]
                intro hm
                rcases List.mem_singleton.1 hm with rfl
                exact hane rfl
              omega
      · have hget : dGet h s 0 = 0 := dGet_eq_dflt hsk
        have hspre : s ∉ pre := by
          intro hm
          exact hsk ((hmem s).2 ⟨hs0, hm⟩)
        apply ih (pre ++ [s]) _ (by
          rw [dSet_keys_not_mem hsk]
          rw [List.nodup_append]
          exact ⟨hnd, List.nodup_singleton s, fun a ha hb => by
            rcases List.mem_singleton.1 hb with rfl
            exact hsk ha⟩)
        · intro x
          rw [dSet_keys_not_mem hsk]
          constructor
          · intro hx
            rcases List.mem_append.1 hx with hx | hx
            · obtain ⟨hx0, hxp⟩ := (hmem x).1 hx
              exact ⟨hx0, List.mem_append_left _ hxp⟩
            · rcases List.mem_singleton.1 hx with rfl
              exact ⟨hs0, List.mem_append_right _ (List.mem_singleton.2 rfl)⟩
          · rintro ⟨hx0, hxp⟩
            rcases List.mem_append.1 hxp with hxp | hxp
            · exact List.mem_append_left _ ((hmem x).2 ⟨hx0, hxp⟩)
            · rcases List.mem_singleton.1 hxp with rfl
              exact List.mem_append_right _ (List.mem_singleton.2 rfl)
        · intro p hp
          rw [dSet_eq_append_of_not_mem hsk] at hp
          rcases List.mem_append.1 hp with hp | hp
          · have hane : p.1 ≠ s := by
              intro he
              exact hsk (he ▸ List.mem_map.2 ⟨p, hp, rfl⟩)
            rw [List.count_append, hcnt p hp]
            have hz : List.count p.1 [s] = 0 := by
              rw [List.count_eq_zero]
              intro hm
              rcases List.mem_singleton.1 hm with rfl
              exact hane rfl
            omega
          · rcases List.mem_singleton.1 hp with rfl
            simp only [hget]
            rw [List.count_append]
            have h1 : List.count s [s] = 1 := by simp
            have hc0 : pre.count s = 0 := List.count_eq_zero.2 hspre
            omega

theorem hist_dict_spec (sizes : List Int) :
    ((sizes.foldl (fun h s => if s = 0 then h else dSet h s (1 + dGet h s 0)) []).map
        Prod.fst).Nodup ∧
      (∀ x : Int,
        x ∈ (sizes.foldl (fun h s => if s = 0 then h else dSet h s (1 + dGet h s 0)) []).map
          Prod.fst ↔ x ≠ 0 ∧ x ∈ sizes) ∧
      (∀ p ∈ sizes.foldl (fun h s => if s = 0 then h else dSet h s (1 + dGet h s 0)) [],
        p.2 = ((sizes.count p.1 : Int))) := by
  have := hist_fold_inv sizes [] [] (by simp) (by simp) (by simp)
  simpa using this

theorem histogram_key_eq_spec (sizes : List Int) :
    histogram_key sizes = specHistogram sizes := by
  obtain ⟨hnd, hmem, hcnt⟩ := hist_dict_spec sizes
  set h := sizes.foldl (fun h s => if s = 0 then h else dSet h s (1 + dGet h s 0)) []
    with hh
  set vlist := ((sizes.filter (fun s => decide (s ≠ 0))).dedup).insertionSort rIntDesc
    with hv
  suffices hlist : h.insertionSort rPairDesc =
      vlist.map (fun v => (v, (sizes.count v : Int))) by
    show joinPairs (h.insertionSort rPairDesc) =
      joinPairs (vlist.map (fun v => (v, (sizes.count v : Int))))
    rw [hlist]
  have hvnd : vlist.Nodup :=
    (List.perm_insertionSort rIntDesc _).nodup_iff.2 (List.nodup_dedup _)
  have hvsorted : vlist.Sorted rIntDesc := List.sorted_insertionSort rIntDesc _
  have hvm : ∀ x : Int, x ∈ vlist ↔ x ≠ 0 ∧ x ∈ sizes := by
    intro x
    rw [hv]
    rw [(List.perm_insertionSort rIntDesc _).mem_iff, List.mem_dedup, List.mem_filter]
    simp only [decide_eq_true_eq]
    constructor
    · rintro ⟨h1, h2⟩
      exact ⟨h2, h1⟩
    · rintro ⟨h1, h2⟩
      exact ⟨h2, h1⟩
  apply List.eq_of_perm_of_sorted (r := rPairDesc)
  · have hperm1 : (h.insertionSort rPairDesc).Perm h := List.perm_insertionSort _ _
    refine hperm1.trans ?_
    have hhnd : h.Nodup := hnd.of_map _
    have htnd : (vlist.map (fun v => (v, (sizes.count v : Int)))).Nodup := by
      have hinj : Function.Injective (fun v : Int => (v, (sizes.count v : Int))) := by
        intro a b he
        injection he with h1 _
      exact hvnd.map hinj
    rw [List.perm_ext_iff_of_nodup hhnd htnd]
    rintro ⟨a, b⟩
    constructor
    · intro hab
      have ha : a ∈ h.map Prod.fst := List.mem_map.2 ⟨(a, b), hab, rfl⟩
      have hb : b = (sizes.count a : Int) := hcnt (a, b) hab
      exact List.mem_map.2 ⟨a, (hvm a).2 ((hmem a).1 ha), by rw [hb]⟩
    · intro hab
      obtain ⟨v2, hv2, he⟩ := List.mem_map.1 hab
      injection he with h1 h2
      subst h1
      have ha : v2 ∈ h.map Prod.fst := (hmem v2).2 ((hvm v2).1 hv2)
      obtain ⟨p0, hp0, hp0a⟩ := List.mem_map.1 ha
      have hp0e : p0 = (v2, b) := by
        apply Prod.ext
        · exact hp0a
        · have hc := hcnt p0 hp0
          rw [hp0a] at hc
          rw [hc]
          exact h2
      exact hp0e ▸ hp0
  · exact List.sorted_insertionSort _ _
  · have hpair : List.Pairwise (fun a b : Int => rIntDesc a b ∧ a ≠ b) vlist :=
      hvsorted.and hvnd
    unfold List.Sorted
    rw [List.pairwise_map]
    apply hpair.imp
    intro a b hab
    obtain ⟨hle, hne⟩ := hab
    unfold rIntDesc at hle
    unfold rPairDesc
    simp only
    left
    omega

theorem foldl_foldl_flatten (g : List (Int × Int) → Int → List (Int × Int)) :
    ∀ (chains : List (List Int)) (init : List (Int × Int)),
      chains.foldl (fun o c => c.foldl g o) init = (chains.flatten).foldl g init := by
  intro chains
  induction chains with
  | nil => intro init; rfl
  | cons c cs ih =>
    intro init
    rw [List.foldl_cons, List.flatten_cons, List.foldl_append, ih]

theorem co_fold_inv :
    ∀ (l pre : List Int),
      l.foldl (fun o q => dSet o q (1 + dGet o q (-1)))
        ((occOrder pre).map (fun q => (q, (pre.count q : Int) - 1))) =
      (occOrder (pre ++ l)).map (fun q => (q, ((pre ++ l).count q : Int) - 1)) := by
  intro l
  induction l with
  | nil => intro pre; rw [List.foldl_nil, List.append_nil]
  | cons q rest ih =>
    intro pre
    rw [List.foldl_cons]
    have hassoc : pre ++ q :: rest = (pre ++ [q]) ++ rest := by simp
    rw [hassoc, ← ih (pre ++ [q])]
    congr 1
    set d := (occOrder pre).map (fun q2 => (q2, (pre.count q2 : Int) - 1)) with hd
    have hkeys : d.map Prod.fst = occOrder pre := by
      rw [hd, List.map_map]
      have hcomp : (Prod.fst ∘ fun q2 : Int => (q2, (pre.count q2 : Int) - 1)) = id := rfl
      rw [hcomp, List.map_id]
    by_cases hq : q ∈ occOrder pre
    · have hqpre : q ∈ pre := mem_occOrder.1 hq
      have hget : dGet d q (-1) = (pre.count q : Int) - 1 := by
        apply dGet_eq_of_mem (by rw [hkeys]; exact occOrder_nodup pre)
        rw [hd]
        exact List.mem_map.2 ⟨q, hq, rfl⟩
      rw [hget]
      rw [dSet_eq_map_of_mem (by rw [hkeys]; exact hq)]
      rw [occOrder_append_one, if_pos hq, hd, List.map_map]
      apply List.map_congr_left
      intro a ha
      simp only [Function.comp]
      by_cases haq : a = q
      · subst haq
        rw [if_pos rfl]
        have h1 : ∀ z : Int, List.count z [z] = 1 := by intro z; simp
        rw [List.count_append, h1]
        congr 1
        push_cast
        omega
      · rw [if_neg haq]
        have hz : List.count a [q] = 0 := by
          rw [List.count_eq_zero]
          intro hm
          rcases List.mem_singleton.1 hm with rfl
          exact haq rfl
        rw [List.count_append, hz]
        simp
    · have hqpre : q ∉ pre := fun hm => hq (mem_occOrder.2 hm)
      have hget : dGet d q (-1) = -1 := by
        apply dGet_eq_dflt
        rw [hkeys]
        exact hq
      rw [hget]
      rw [dSet_eq_append_of_not_mem (by rw [hkeys]; exact hq)]
      rw [occOrder_append_one, if_neg hq, List.map_append]
      congr 1
      · rw [hd]
        apply List.map_congr_left
        intro a ha
        have haq : a ≠ q := fun he => hq (he ▸ ha)
        have hz : List.count a [q] = 0 := by
          rw [List.count_eq_zero]
          intro hm
          rcases List.mem_singleton.1 hm with rfl
          exact haq rfl
        rw [List.count_append, hz]
        simp
      · simp only [List.map_cons, List.map_nil]
        have h1 : ∀ z : Int, List.count z [z] = 1 := by intro z; simp
        have hc0 : pre.count q = 0 := List.count_eq_zero.2 hqpre
        rw [List.count_append, h1, hc0]
        simp

theorem count_overlaps_eq (chains : List (List Int)) :
    count_overlaps chains =
      (occOrder chains.flatten).map
        (fun q => (q, (chains.flatten.count q : Int) - 1)) := by
  unfold count_overlaps
  rw [foldl_foldl_flatten]
  have := co_fold_inv chains.flatten []
  simpa using this

theorem overlap_values_eq (emb : List (List Int)) :
    (count_overlaps emb).map (fun p => p.2) = specOverlapValues emb := by
  rw [count_overlaps_eq]
  unfold specOverlapValues
  rw [List.map_map]
  rfl

/-- C7 (amended): for a nonempty embedding, `quality_key` returns
`(state, O, L)` where `L` is the descending histogram of the NONZERO chain
lengths (zero-length chains are omitted, exactly as zero overlap counts are),
`O` is the descending histogram of the overlap counts (occurrences of a
target node across chains minus one, zero counts omitted; empty when
`embedded` is true), and `state` is 1 if `O` is nonempty and 0 otherwise;
the empty embedding yields the bare state `(2,)`; tuple comparison ranks
proper embeddings below overlapping ones below empty. -/
theorem claim_C7 (emb : List (List Int)) (embedded : Bool) (hne : emb ≠ []) :
    (quality_key emb embedded =
      ((if (if embedded then ([] : List Int)
            else specHistogram (specOverlapValues emb)) = [] then 0 else 1),
        some ((if embedded then ([] : List Int)
            else specHistogram (specOverlapValues emb)),
          specHistogram (emb.map (fun c => (c.length : Int)))))) ∧
      quality_key [] embedded = (2, none) ∧
      (∀ O1 L1 O2 L2 : List Int,
        qkeyLtB (0, some (O1, L1)) (1, some (O2, L2)) = true ∧
          qkeyLtB (1, some (O1, L1)) (2, none) = true ∧
          qkeyLtB (0, some (O1, L1)) (2, none) = true) := by
  refine ⟨?_, ?_, ?_⟩
  · unfold quality_key
    rw [if_neg hne]
    rw [histogram_key_eq_spec]
    match embedded with
    | true => rfl
    | false =>
      simp only [Bool.false_eq_true, if_false]
      rw [overlap_values_eq, histogram_key_eq_spec]
  · unfold quality_key
    rw [if_pos rfl]
  · intro O1 L1 O2 L2
    refine ⟨?_, ?_, ?_⟩ <;> simp [qkeyLtB]

/-- C7, claim as stated, is false on an embedding with a zero-length chain:
`histogram_key` skips zero sizes for the length histogram `L` as well, so for
`emb = {x: []}` the code returns `L = []` while the claimed histogram of the
chain lengths is `[0, 1]`. -/
theorem claim_C7_counterexample :
    quality_key [([] : List Int)] false = (0, some ([], [])) ∧
      specHistogramAll ([([] : List Int)].map (fun c => (c.length : Int))) = [0, 1] ∧
      quality_key [([] : List Int)] false ≠
        (0, some ([],
          specHistogramAll ([([] : List Int)].map (fun c => (c.length : Int))))) :=
  ⟨by decide, by decide, by decide⟩

/-- C7 witness: the amended characterization applied to a concrete
overlapping embedding. -/
theorem claim_C7_witness :
    quality_key [[1, 2], [2], [3]] false =
      ((if (if false then ([] : List Int)
            else specHistogram (specOverlapValues [[1, 2], [2], [3]])) = []
        then 0 else 1),
        some ((if false then ([] : List Int)
            else specHistogram (specOverlapValues [[1, 2], [2], [3]])),
          specHistogram ([[1, 2], [2], [3]].map (fun c => (c.length : Int))))) :=
  (claim_C7 [[1, 2], [2], [3]] false (by decide)).1

/-- `labeldict.__getitem__` either finds the label (table unchanged) or
appends it at the end. -/
theorem ldIdx_spec (L : List Lab) (x : Lab) :
    (x ∈ L ∧ (ldIdx L x).1 = L) ∨ (x ∉ L ∧ (ldIdx L x).1 = L ++ [x]) := by
  cases hf : L.findIdx? (fun y => decide (y = x)) with
  | some i =>
    left
    constructor
    · by_contra hx
      have hnone : L.findIdx? (fun y => decide (y = x)) = none := by
        rw [List.findIdx?_eq_none_iff]
        intro y hy
        simp only [decide_eq_false_iff_not]
        intro he
        exact hx (he ▸ hy)
      rw [hf] at hnone
      exact Option.noConfusion hnone
    · show (ldIdx L x).1 = L
      unfold ldIdx
      rw [hf]
  | none =>
    right
    constructor
    · intro hx
      have h2 := (List.findIdx?_eq_none_iff.1 hf) x hx
      simp at h2
    · show (ldIdx L x).1 = L ++ [x]
      unfold ldIdx
      rw [hf]

/-- `labeldict.__getitem__` only appends fresh labels, and the looked-up
label is present afterwards. -/
theorem ldIdx_ext (L : List Lab) (x : Lab) :
    ∃ e, (ldIdx L x).1 = L ++ e ∧ (∀ l ∈ e, l ∉ L) ∧ x ∈ (ldIdx L x).1 := by
  rcases ldIdx_spec L x with ⟨hx, he⟩ | ⟨hx, he⟩
  · exact ⟨[], by simp [he], by simp, by rw [he]; exact hx⟩
  · refine ⟨[x], he, ?_, ?_⟩
    · intro l hl
      have hlx : l = x := by simpa using hl
      rw [hlx]
      exact hx
    · rw [he]
      exact List.mem_append_right _ (by simp)

/-- The target-side blob fold of `procBlob` never touches the source label
table. -/
theorem tlFold_SL (pn : Lab) :
    ∀ (blob : List Lab) (st : PState),
      (blob.foldl (fun st q =>
        let r1 := ldIdx st.TL pn
        let r2 := ldIdx r1.1 q
        { st with TL := r2.1, Tg := st.Tg ++ [(r1.2, r2.2)] }) st).SL = st.SL
  | [], _ => rfl
  | q :: bs, st => by
    rw [List.foldl_cons]
    exact tlFold_SL pn bs _

/-- Processing one suspension blob only appends fresh labels to the source
table; if the blob is nonempty its pin label is among them. -/
theorem procBlob_SL {st : PState} {v : Lab} {i : Nat} {b : List Lab}
    {st2 : PState} (h : procBlob st v i b = .ok st2) :
    ∃ ext, st2.SL = st.SL ++ ext ∧ (∀ l ∈ ext, l ∉ st.SL) ∧
      (b ≠ [] → Lab.pin v i ∈ ext) := by
  simp only [procBlob] at h
  by_cases h1 : Lab.pin v i ∈ st.SL
  · rw [if_pos h1] at h
    exact absurd h (by simp)
  · rw [if_neg h1] at h
    by_cases h2 : Lab.pin v i ∈ st.TL
    · rw [if_pos h2] at h
      exact absurd h (by simp)
    · rw [if_neg h2] at h
      have hSL : (b.foldl (fun st q =>
          let r1 := ldIdx st.TL (Lab.pin v i)
          let r2 := ldIdx r1.1 q
          { st with TL := r2.1, Tg := st.Tg ++ [(r1.2, r2.2)] }) st).SL
          = st.SL := tlFold_SL (Lab.pin v i) b st
      by_cases hb : b = []
      · rw [if_pos hb] at h
        injection h with h3
        refine ⟨[], ?_, by simp, fun hne => absurd hb hne⟩
        rw [← h3, hSL, List.append_nil]
      · rw [if_neg hb] at h
        injection h with h3
        obtain ⟨e1, he1, hf1, _⟩ := ldIdx_ext st.SL v
        obtain ⟨e2, he2, hf2, hm2⟩ := ldIdx_ext (ldIdx st.SL v).1 (Lab.pin v i)
        have hstSL : st2.SL = (ldIdx (ldIdx st.SL v).1 (Lab.pin v i)).1 := by
          rw [← h3]
          show (ldIdx (ldIdx (b.foldl _ st).SL v).1 (Lab.pin v i)).1 = _
          rw [hSL]
        refine ⟨e1 ++ e2, ?_, ?_, ?_⟩
        · rw [hstSL, he2, he1, List.append_assoc]
        · intro l hl
          rcases List.mem_append.1 hl with hl | hl
          · exact hf1 l hl
          · intro hmem
            exact hf2 l hl (by rw [he1]; exact List.mem_append_left _ hmem)
        · intro _
          have hm2' : Lab.pin v i ∈ st.SL ++ (e1 ++ e2) := by
            rw [← List.append_assoc, ← he1, ← he2]
            exact hm2
          rcases List.mem_append.1 hm2' with hc | hc
          · exact absurd hc h1
          · exact hc

/-- Processing the blob list of one suspended variable only appends fresh
labels to the source table; all pins it materializes are among them. -/
theorem procBlobs_SL :
    ∀ (bs : List (List Lab)) (st : PState) (v : Lab) (i : Nat) (st2 : PState),
      procBlobs st v i bs = .ok st2 →
      ∃ ext, st2.SL = st.SL ++ ext ∧ (∀ l ∈ ext, l ∉ st.SL) ∧
        ∀ pl ∈ materializedPinsB v i bs, pl ∈ ext
  | [], st, v, i, st2, h => by
    simp only [procBlobs] at h
    injection h with h3
    refine ⟨[], by rw [← h3, List.append_nil], by simp, ?_⟩
    intro pl hpl
    simp [materializedPinsB] at hpl
  | b :: bs, st, v, i, st2, h => by
    simp only [procBlobs] at h
    cases hpb : procBlob st v i b with
    | error e =>
      rw [hpb] at h
      exact absurd h (by simp)
    | ok stm =>
      rw [hpb] at h
      obtain ⟨e1, he1, hf1, hp1⟩ := procBlob_SL hpb
      obtain ⟨e2, he2, hf2, hp2⟩ := procBlobs_SL bs stm v (i + 1) st2 h
      refine ⟨e1 ++ e2, ?_, ?_, ?_⟩
      · rw [he2, he1, List.append_assoc]
      · intro l hl
        rcases List.mem_append.1 hl with hl | hl
        · exact hf1 l hl
        · intro hmem
          exact hf2 l hl (by rw [he1]; exact List.mem_append_left _ hmem)
      · intro pl hpl
        rw [materializedPinsB] at hpl
        rcases List.mem_append.1 hpl with hpl | hpl
        · by_cases hb : b = []
          · rw [if_pos hb] at hpl
            simp at hpl
          · rw [if_neg hb] at hpl
            have hpe : pl = Lab.pin v i := by simpa using hpl
            rw [hpe]
            exact List.mem_append_left _ (hp1 hb)
        · exact List.mem_append_right _ (hp2 pl hpl)

/-- The whole `suspend_chains` pin loop only appends fresh labels to the
source table; every materialized pin is among the appended labels. -/
theorem procSuspend_SL :
    ∀ (susp : List (Lab × List (List Lab))) (st st2 : PState),
      procSuspend st susp = .ok st2 →
      ∃ ext, st2.SL = st.SL ++ ext ∧ (∀ l ∈ ext, l ∉ st.SL) ∧
        ∀ pl ∈ materializedPins susp, pl ∈ ext
  | [], st, st2, h => by
    simp only [procSuspend] at h
    injection h with h3
    refine ⟨[], by rw [← h3, List.append_nil], by simp, ?_⟩
    intro pl hpl
    simp [materializedPins] at hpl
  | vb :: rest, st, st2, h => by
    simp only [procSuspend] at h
    cases hpb : procBlobs st vb.1 0 vb.2 with
    | error e =>
      rw [hpb] at h
      exact absurd h (by simp)
    | ok stm =>
      rw [hpb] at h
      obtain ⟨e1, he1, hf1, hp1⟩ := procBlobs_SL vb.2 st vb.1 0 stm hpb
      obtain ⟨e2, he2, hf2, hp2⟩ := procSuspend_SL rest stm st2 h
      refine ⟨e1 ++ e2, ?_, ?_, ?_⟩
      · rw [he2, he1, List.append_assoc]
      · intro l hl
        rcases List.mem_append.1 hl with hl | hl
        · exact hf1 l hl
        · intro hmem
          exact hf2 l hl (by rw [he1]; exact List.mem_append_left _ hmem)
      · intro pl hpl
        rw [materializedPins] at hpl
        rcases List.mem_append.1 hpl with hpl | hpl
        · exact List.mem_append_left _ (hp1 pl hpl)
        · exact List.mem_append_right _ (hp2 pl hpl)

/-- The chain-translating fold of `_get_chainmap` only appends to the
source label table (stated over the raw fold for an arbitrary
accumulator). -/
theorem getChainmap_SL_ext :
    ∀ (C : List (Lab × List Lab))
      (acc : List (Nat × List Nat) × List Lab × List Lab),
      ∃ ext, (C.foldl (fun acc p =>
        if p.2 = [] then acc
        else
          let r := p.2.foldl (fun (r : List Lab × List Nat) x =>
            let q := ldIdx r.1 x
            (q.1, r.2 ++ [q.2])) (acc.2.2, [])
          let r2 := ldIdx acc.2.1 p.1
          (acc.1 ++ [(r2.2, r.2)], r2.1, r.1)) acc).2.1 = acc.2.1 ++ ext
  | [], acc => ⟨[], by simp⟩
  | p :: C, acc => by
    simp only [List.foldl_cons]
    by_cases hp : p.2 = []
    · rw [if_pos hp]
      exact getChainmap_SL_ext C acc
    · rw [if_neg hp]
      obtain ⟨e1, he1, _, _⟩ := ldIdx_ext acc.2.1 p.1
      obtain ⟨e2, he2⟩ := getChainmap_SL_ext C
        (acc.1 ++ [((ldIdx acc.2.1 p.1).2,
           (p.2.foldl (fun (r : List Lab × List Nat) x =>
             let q := ldIdx r.1 x
             (q.1, r.2 ++ [q.2])) (acc.2.2, [])).2)],
         (ldIdx acc.2.1 p.1).1,
         (p.2.foldl (fun (r : List Lab × List Nat) x =>
            let q := ldIdx r.1 x
            (q.1, r.2 ++ [q.2])) (acc.2.2, [])).1)
      refine ⟨e1 ++ e2, ?_⟩
      rw [← List.append_assoc, ← he1]
      exact he2

/-- Each `_get_chainmap` pass only appends to the source label table. -/
theorem getChainmap_SL (C : List (Lab × List Lab)) (SL TL : List Lab) :
    ∃ ext, (getChainmap C SL TL).2.1 = SL ++ ext := by
  unfold getChainmap
  exact getChainmap_SL_ext C ([], SL, TL)

/-- C1: for every successful `find_embedding` call with a `suspend_chains`
option that materializes at least one auxiliary pin, the keys of the
returned mapping (the labels of variables `0 .. nc - pincount - 1`, where
`nc` is the length of the chain vector returned by the C++ core, equal in a
successful run to the final source-table length, or `0` when no embedding
was found) all lie in the original source-edge label table, and no
materialized pin label is among them: pins are stripped from the returned
mapping. -/
theorem claim_C1 (p : MMParams) (S T : List (Lab × Lab)) (st : PState)
    (nc : Nat) (hok : inputParserInit p S T = .ok st)
    (hsus : p.keys.contains ("suspend_chains") = true)
    (hpin : 1 ≤ st.pincount)
    (hnc : nc = st.SL.length ∨ nc = 0) :
    (∀ l ∈ rchainKeys st nc, l ∈ (readGraph S).1) ∧
      ∀ pl ∈ materializedPins p.suspend, pl ∉ rchainKeys st nc := by
  clear hpin
  unfold inputParserInit at hok
  split at hok
  · exact absurd hok (by simp)
  lift_lets at hok
  extract_lets rS rT checkS checkT fixed0 st0 at hok
  rw [if_pos hsus] at hok
  split at hok
  · exact absurd hok (by simp)
  rename_i st1 hps
  lift_lets at hok
  extract_lets r1 r2 r3 at hok
  split at hok
  · exact absurd hok (by simp)
  split at hok
  · exact absurd hok (by simp)
  split at hok
  · exact absurd hok (by simp)
  split at hok
  · exact absurd hok (by simp)
  split at hok
  · exact absurd hok (by simp)
  split at hok
  · exact absurd hok (by simp)
  split at hok
  · exact absurd hok (by simp)
  rename_i hn7
  split at hok
  · exact absurd hok (by simp)
  injection hok with hfin
  have hstSL : st.SL = r3.2.1 := by rw [← hfin]
  have hpc : st.pincount = st1.pincount := by rw [← hfin]
  obtain ⟨ext1, he1, hf1, hp1⟩ := procSuspend_SL p.suspend st0 st1 hps
  have hst0 : st0.SL = rS.1 := rfl
  rw [hst0] at he1
  obtain ⟨e2, hr1⟩ : ∃ e, r1.2.1 = st1.SL ++ e := getChainmap_SL _ _ _
  obtain ⟨e3, hr2⟩ : ∃ e, r2.2.1 = r1.2.1 ++ e := getChainmap_SL _ _ _
  obtain ⟨e4, hr3⟩ : ∃ e, r3.2.1 = r2.2.1 ++ e := getChainmap_SL _ _ _
  have hlen : r3.2.1.length ≤ rS.1.length + st1.pincount := Nat.le_of_not_lt hn7
  have hSLfull : st.SL = rS.1 ++ (ext1 ++ (e2 ++ (e3 ++ e4))) := by
    rw [hstSL, hr3, hr2, hr1, he1]
    simp only [List.append_assoc]
  have hkeys : ∀ l ∈ rchainKeys st nc, l ∈ rS.1 := by
    intro l hl
    rcases hnc with hnc | hnc
    · by_cases h0 : nc = 0
      · rw [h0, rchainKeys] at hl
        simp at hl
      · rw [rchainKeys, if_neg h0] at hl
        obtain ⟨vi, hvi, hveq⟩ := List.mem_map.1 hl
        rw [List.mem_range] at hvi
        have hlen2 : st.SL.length ≤ rS.1.length + st1.pincount := by
          rw [hstSL]
          exact hlen
        have hvi2 : vi < rS.1.length := by omega
        rw [← hveq, hSLfull]
        rw [List.getD_append _ _ _ _ hvi2]
        rw [List.getD_eq_getElem _ _ hvi2]
        exact List.getElem_mem hvi2
    · rw [hnc, rchainKeys] at hl
      simp at hl
  refine ⟨fun l hl => hkeys l hl, ?_⟩
  intro pl hpl hmem
  have hfr : pl ∉ st0.SL := hf1 pl (hp1 pl hpl)
  rw [hst0] at hfr
  exact hfr (hkeys pl hmem)

/-- C1 witness: the concrete call with one suspended variable materializes
the pin `("__MINORMINER_INTERNAL_PIN_FOR_SUSPENSION", base 0, 0)`, which is
not among the returned-mapping keys. -/
theorem claim_C1_witness :
    Lab.pin (Lab.base 0) 0 ∉ rchainKeys stW 3 := by
  have h := claim_C1 pW sW tW stW 3 (by rfl) (by rfl) (by decide)
    (Or.inl (by rfl))
  exact h.2 (Lab.pin (Lab.base 0) 0) (by decide)

theorem claim_C2_witness :
    "bogus_option" ∈ (["bogus_option"] : List String) ∧
      validNames.contains ("bogus_option") = false ∧
      inputParserInit ⟨["bogus_option"], [], [], [], []⟩ [] [] = .error PErr.valueError :=
  ⟨by decide, by decide,
    claim_C2 ⟨["bogus_option"], [], [], [], []⟩ "bogus_option" (by decide) (by decide) [] []⟩

end MMV
